import Mathlib

/-!
# Verification of the mkinitfs composition pipeline

A shallow embedding, in Lean 4, of the core algorithms of the
postmarketos-mkinitfs initramfs generator, together with theorems settling
the specification's claims about them.

Go strings are modelled as Lean `String`s (sequences of characters); all
string primitives used by the program (`strings.Split`, `strings.Join`,
`strings.HasPrefix`, `strings.TrimPrefix`, `strings.TrimSuffix`,
`strings.Cut`, `strings.Fields`, `path/filepath.Clean`, `filepath.Join`,
`filepath.Base`, `filepath.Dir`) are re-implemented below on `List Char`,
following the Go standard library semantics.  The host filesystem is
modelled as an abstract environment of functions (one per syscall used),
and recursive filesystem walks take an explicit fuel argument.
-/

namespace Mkinitfs

/-! ## Go string primitives -/

/-- `strings.Split(s, string(sep))` for a one-character separator:
splits on every occurrence of `sep`, keeping empty fields. -/
def splitCh (sep : Char) : List Char → List (List Char)
  | [] => [[]]
  | c :: cs =>
    let r := splitCh sep cs
    if c = sep then [] :: r else (c :: r.headI) :: r.tail

/-- `strings.Join(ss, string(sep))` for a one-character separator. -/
def joinCh (sep : Char) : List (List Char) → List Char
  | [] => []
  | [x] => x
  | x :: y :: ys => x ++ sep :: joinCh sep (y :: ys)

theorem splitCh_ne_nil (sep : Char) (l : List Char) : splitCh sep l ≠ [] := by
  cases l with
  | nil => simp [splitCh]
  | cons c cs =>
    simp only [splitCh]
    split <;> simp

theorem splitCh_cons_of_ne (sep c : Char) (cs : List Char) (h : c ≠ sep) :
    splitCh sep (c :: cs) = (c :: (splitCh sep cs).headI) :: (splitCh sep cs).tail := by
  simp [splitCh, h]

theorem splitCh_cons_of_eq (sep : Char) (cs : List Char) :
    splitCh sep (sep :: cs) = [] :: splitCh sep cs := by
  simp [splitCh]

theorem joinCh_splitCh (sep : Char) (l : List Char) :
    joinCh sep (splitCh sep l) = l := by
  induction l with
  | nil => simp [splitCh, joinCh]
  | cons c cs ih =>
    by_cases h : c = sep
    · rw [h, splitCh_cons_of_eq]
      obtain ⟨h₁, t₁, he⟩ : ∃ h₁ t₁, splitCh sep cs = h₁ :: t₁ :=
        List.exists_cons_of_ne_nil (splitCh_ne_nil sep cs)
      rw [he] at ih ⊢
      simp [joinCh, ih]
    · rw [splitCh_cons_of_ne sep c cs h]
      obtain ⟨h₁, t₁, he⟩ : ∃ h₁ t₁, splitCh sep cs = h₁ :: t₁ :=
        List.exists_cons_of_ne_nil (splitCh_ne_nil sep cs)
      rw [he] at ih ⊢
      cases t₁ with
      | nil => simpa [joinCh] using congrArg (c :: ·) ih
      | cons y ys =>
        simp only [List.headI, List.tail]
        simp only [joinCh] at ih ⊢
        simpa using congrArg (c :: ·) ih

theorem splitCh_of_not_mem (sep : Char) (l : List Char) (h : sep ∉ l) :
    splitCh sep l = [l] := by
  induction l with
  | nil => simp [splitCh]
  | cons c cs ih =>
    have hc : c ≠ sep := by rintro rfl; exact h (List.mem_cons_self _ _)
    have hcs : sep ∉ cs := fun hm => h (List.mem_cons_of_mem _ hm)
    rw [splitCh_cons_of_ne sep c cs hc, ih hcs]
    simp

theorem splitCh_append_sep (sep : Char) (w l : List Char) (hw : sep ∉ w) :
    splitCh sep (w ++ sep :: l) = w :: splitCh sep l := by
  induction w with
  | nil => simp [splitCh_cons_of_eq]
  | cons c cs ih =>
    have hc : c ≠ sep := by rintro rfl; exact hw (List.mem_cons_self _ _)
    have hcs : sep ∉ cs := fun hm => hw (List.mem_cons_of_mem _ hm)
    rw [List.cons_append, splitCh_cons_of_ne sep c _ hc, ih hcs]
    simp

theorem not_mem_of_mem_splitCh (sep : Char) (l s : List Char)
    (hs : s ∈ splitCh sep l) : sep ∉ s := by
  induction l generalizing s with
  | nil =>
    simp only [splitCh, List.mem_singleton] at hs
    subst hs; simp
  | cons c cs ih =>
    obtain ⟨h₁, t₁, he⟩ : ∃ h₁ t₁, splitCh sep cs = h₁ :: t₁ :=
      List.exists_cons_of_ne_nil (splitCh_ne_nil sep cs)
    by_cases hc : c = sep
    · subst hc
      rw [splitCh_cons_of_eq] at hs
      rcases List.mem_cons.mp hs with h | h
      · subst h; simp
      · exact ih s h
    · rw [splitCh_cons_of_ne sep c cs hc, he] at hs
      rcases List.mem_cons.mp hs with h | h
      · subst h
        intro hm
        rcases List.mem_cons.mp hm with h' | h'
        · exact hc h'.symm
        · exact ih h₁ (by rw [he]; exact List.mem_cons_self _ _) h'
      · exact ih s (by rw [he]; exact List.mem_cons_of_mem _ h)

/-- `strings.HasPrefix` on character lists. -/
def hasPrefixL : List Char → List Char → Bool
  | _, [] => true
  | [], _ :: _ => false
  | c :: cs, p :: ps => c = p && hasPrefixL cs ps

/-- `strings.HasPrefix(s, pre)`. -/
def goHasPrefix (s pre : String) : Bool := hasPrefixL s.data pre.data

/-- `strings.TrimPrefix(s, pre)`. -/
def goTrimPrefix (s pre : String) : String :=
  if goHasPrefix s pre then ⟨s.data.drop pre.data.length⟩ else s

/-! ## `path/filepath` primitives (unix rules) -/

/-- One step of the `filepath.Clean` element loop: the effect of one path
component `c` (already known to be neither empty nor `"."`) on the stack of
output components. -/
def cleanStep (rooted : Bool) (st : List (List Char)) (c : List Char) : List (List Char) :=
  if c = ['.', '.'] then
    if rooted then st.dropLast
    else
      match st.getLast? with
      | none => [c]
      | some last => if last = ['.', '.'] then st ++ [c] else st.dropLast
  else st ++ [c]

/-- `filepath.Clean` on character lists (Plan 9 `cleanname`). -/
def goCleanL (l : List Char) : List Char :=
  if l = [] then ['.']
  else
    let rooted := decide (l.headI = '/')
    let comps := (splitCh '/' l).filter (fun c => decide (c ≠ []) && decide (c ≠ ['.']))
    let st := comps.foldl (cleanStep rooted) []
    if rooted then '/' :: joinCh '/' st
    else if st = [] then ['.'] else joinCh '/' st

/-- `filepath.Clean(path)`. -/
def goClean (s : String) : String := ⟨goCleanL s.data⟩

/-- `filepath.Join(a, b)`: empty elements are dropped, the rest are joined
with `/` and the result is cleaned. -/
def goJoin2 (a b : String) : String :=
  if a ≠ "" then goClean ⟨a.data ++ '/' :: b.data⟩
  else if b ≠ "" then goClean b
  else ""

/-- `filepath.IsAbs(path)` on unix: absolute iff it starts with a slash. -/
def goIsAbs (s : String) : Bool := s.data.headI = '/' && decide (s.data ≠ [])

/-- `filepath.Dir(path)`: everything up to and including the final slash,
cleaned; `"."` when there is no slash. -/
def goDir (s : String) : String :=
  ⟨goCleanL ((s.data.reverse.dropWhile (fun c => decide (c ≠ '/'))).reverse)⟩

/-- `filepath.Base` on character lists: the last element after stripping
trailing slashes; `"."` for the empty path, `"/"` for an all-slash path. -/
def goBaseL (l : List Char) : List Char :=
  if l = [] then ['.']
  else
    let l1 := (l.reverse.dropWhile (fun c => decide (c = '/'))).reverse
    let b := (l1.reverse.takeWhile (fun c => decide (c ≠ '/'))).reverse
    if b = [] then ['/'] else b

/-- `filepath.Base(path)`. -/
def goBase (s : String) : String := ⟨goBaseL s.data⟩

/-! ### Cleaning facts used to reason about `MergeUsr` and `addDir` -/

theorem cleanStep_no_dotdot (rooted : Bool) (comps : List (List Char))
    (h : ['.', '.'] ∉ comps) (st : List (List Char)) :
    comps.foldl (cleanStep rooted) st = st ++ comps := by
  induction comps generalizing st with
  | nil => simp
  | cons c cs ih =>
    have hc : c ≠ ['.', '.'] := by rintro rfl; exact h (List.mem_cons_self _ _)
    have hcs : ['.', '.'] ∉ cs := fun hm => h (List.mem_cons_of_mem _ hm)
    simp only [List.foldl_cons, cleanStep, if_neg hc]
    rw [ih hcs]
    simp

/-- `Clean` of a rooted path whose components contain no `..` just drops
empty and `.` components. -/
theorem goCleanL_rooted_no_dotdot (l : List Char) (hne : l ≠ [])
    (hroot : l.headI = '/')
    (hdd : ['.', '.'] ∉ splitCh '/' l) :
    goCleanL l =
      '/' :: joinCh '/' ((splitCh '/' l).filter
        (fun c => decide (c ≠ []) && decide (c ≠ ['.']))) := by
  have hr : decide (l.headI = '/') = true := decide_eq_true hroot
  simp only [goCleanL, if_neg hne, hr, if_true]
  rw [cleanStep_no_dotdot true _ (fun hm => hdd (List.mem_of_mem_filter hm)) []]
  simp

example : goClean "/usr//bin/../lib/./x" = "/usr/lib/x" := by decide
example : goClean "a/../.." = ".." := by decide
example : goClean "/.." = "/" := by decide
example : goClean "" = "." := by decide
example : goJoin2 "/usr" "/bin/foo" = "/usr/bin/foo" := by decide
example : goDir "/a/b" = "/a" ∧ goDir "foo" = "." := by decide
example : goBase "a/b/c.ko" = "c.ko" ∧ goBase "//" = "/" := by decide

/-! ## `internal/osutil`: merged usr detection and path rewriting -/

/-- Result of `os.Lstat` on one of the probed directories: `none` models a
stat error (entry missing), otherwise the mode's symlink bit. -/
inductive LstatKind where
  | symlink : LstatKind
  | other : LstatKind
deriving DecidableEq

/-- The loop body of `osutil.HasMergedUsr`: walk the probed directories in
order; a stat error yields `true`, a non-symlink yields `false`. -/
def hasMergedUsrLoop (lstat : String → Option LstatKind) : List String → Bool
  | [] => true
  | d :: rest =>
    match lstat d with
    | none => true
    | some k => if k = .symlink then hasMergedUsrLoop lstat rest else false

/-- `osutil.HasMergedUsr()`, over an abstract `os.Lstat`. -/
def hasMergedUsr (lstat : String → Option LstatKind) : Bool :=
  hasMergedUsrLoop lstat ["/bin", "/lib"]

/-- The prefixes probed by `osutil.MergeUsr` (in loop order). -/
def mergeUsrPrefixes : List String := ["/bin", "/sbin", "/lib", "/lib64"]

/-- `osutil.MergeUsr(file)`: the first matching prefix (loop with `break`)
triggers `filepath.Join("/usr", file)`. -/
def mergeUsr (file : String) : String :=
  match mergeUsrPrefixes.find? (fun p => goHasPrefix file p) with
  | some _ => goJoin2 "/usr" file
  | none => file

/-- Does `file` start with one of the four probed prefixes? -/
def mergeUsrApplies (file : String) : Bool :=
  goHasPrefix file "/bin" || goHasPrefix file "/sbin" ||
    goHasPrefix file "/lib" || goHasPrefix file "/lib64"

example : mergeUsr "/bin/foo" = "/usr/bin/foo" := by decide
example : mergeUsr "/lib64/foo.so" = "/usr/lib64/foo.so" := by decide
example : mergeUsr "/etc/foo" = "/etc/foo" := by decide

/-- A path in canonical absolute form: a leading slash followed by
`/`-separated components that are all nonempty and none of which is `.`
or `..` (so no duplicate, leading-extra or trailing slashes). -/
def normalAbs (p : String) : Bool :=
  decide (p.data ≠ []) && decide (p.data.headI = '/') &&
    (splitCh '/' p.data.tail).all
      (fun s => decide (s ≠ []) && decide (s ≠ ['.']) && decide (s ≠ ['.', '.']))

theorem mergeUsr_eq (p : String) :
    mergeUsr p = if mergeUsrApplies p then goJoin2 "/usr" p else p := by
  by_cases h1 : goHasPrefix p "/bin" <;>
    by_cases h2 : goHasPrefix p "/sbin" <;>
      by_cases h3 : goHasPrefix p "/lib" <;>
        by_cases h4 : goHasPrefix p "/lib64" <;>
          simp [mergeUsr, mergeUsrPrefixes, mergeUsrApplies, List.find?, h1, h2, h3, h4]

theorem hasPrefixL_cons (l : List Char) (c : Char) (ps : List Char)
    (h : hasPrefixL l (c :: ps) = true) : ∃ t, l = c :: t ∧ hasPrefixL t ps = true := by
  cases l with
  | nil => simp [hasPrefixL] at h
  | cons c' t =>
    simp only [hasPrefixL, Bool.and_eq_true, decide_eq_true_eq] at h
    exact ⟨t, by rw [h.1], h.2⟩

theorem mergeUsrApplies_head (p : String) (happ : mergeUsrApplies p = true) :
    ∃ rest, p.data = '/' :: rest := by
  simp only [mergeUsrApplies, Bool.or_eq_true, goHasPrefix] at happ
  rcases happ with ((h | h) | h) | h <;>
    · obtain ⟨t, ht, -⟩ := hasPrefixL_cons _ _ _ h
      exact ⟨t, ht⟩

/-- Splitting the string `filepath.Join` builds from `"/usr"` and an
absolute path `p = '/' :: rest`. -/
theorem splitCh_usr_join (rest : List Char) :
    splitCh '/' (['/', 'u', 's', 'r', '/'] ++ '/' :: rest) =
      [] :: ['u', 's', 'r'] :: [] :: splitCh '/' rest := by
  simp [splitCh]

/-- On a prefix-matching canonical absolute path, `MergeUsr` is literally
`"/usr" ++ p`. -/
theorem mergeUsr_of_normalAbs (p : String) (hp : normalAbs p = true)
    (happ : mergeUsrApplies p = true) : mergeUsr p = "/usr" ++ p := by
  obtain ⟨rest, hrest⟩ := mergeUsrApplies_head p happ
  have hgood : ∀ s ∈ splitCh '/' rest,
      (decide (s ≠ []) && decide (s ≠ ['.']) && decide (s ≠ ['.', '.'])) = true := by
    intro s hs
    simp only [normalAbs, hrest, List.headI_cons, List.tail_cons, Bool.and_eq_true,
      List.all_eq_true] at hp
    have := hp.2 s hs
    simp only [Bool.and_eq_true]
    exact this
  rw [mergeUsr_eq, if_pos happ]
  have hne : ("/usr" : String) ≠ "" := by decide
  rw [goJoin2, if_pos hne]
  apply String.ext
  show goCleanL ("/usr".data ++ '/' :: p.data) = ("/usr" ++ p).data
  have harg : "/usr".data ++ '/' :: p.data = ['/', 'u', 's', 'r', '/'] ++ '/' :: rest := by
    simp [hrest]
  rw [harg]
  have hsplit := splitCh_usr_join rest
  rw [goCleanL_rooted_no_dotdot _ (by simp) (by simp)]
  · rw [hsplit]
    have hkeep : (splitCh '/' rest).filter (fun c => decide (c ≠ []) && decide (c ≠ ['.'])) =
        splitCh '/' rest := by
      rw [List.filter_eq_self]
      intro a ha
      have := hgood a ha
      simp only [Bool.and_eq_true] at this ⊢
      exact ⟨this.1.1, this.1.2⟩
    have hfilter :
        (([] :: ['u', 's', 'r'] :: [] :: splitCh '/' rest).filter
          (fun c => decide (c ≠ []) && decide (c ≠ ['.']))) =
        ['u', 's', 'r'] :: (splitCh '/' rest).filter
          (fun c => decide (c ≠ []) && decide (c ≠ ['.'])) := rfl
    rw [hfilter, hkeep]
    obtain ⟨h₁, t₁, he⟩ : ∃ h₁ t₁, splitCh '/' rest = h₁ :: t₁ :=
      List.exists_cons_of_ne_nil (splitCh_ne_nil '/' rest)
    have hjoin : joinCh '/' (['u', 's', 'r'] :: splitCh '/' rest) =
        ['u', 's', 'r'] ++ '/' :: joinCh '/' (splitCh '/' rest) := by
      rw [he]; rfl
    rw [hjoin, joinCh_splitCh]
    simp [String.data_append, hrest]
  · rw [hsplit]
    intro hmem
    simp only [List.mem_cons] at hmem
    rcases hmem with h | h | h | hmem
    · exact absurd h (by decide)
    · exact absurd h (by decide)
    · exact absurd h (by decide)
    · have := hgood _ hmem
      simp at this

/-- After a merged rewrite of a `..`-free path, the result starts with
`"/u"`, so none of the four prefixes can match again. -/
theorem mergeUsr_starts_usr (p : String) (hdd : ['.', '.'] ∉ splitCh '/' p.data)
    (happ : mergeUsrApplies p = true) :
    ∃ t, (mergeUsr p).data = '/' :: 'u' :: t := by
  obtain ⟨rest, hrest⟩ := mergeUsrApplies_head p happ
  rw [mergeUsr_eq, if_pos happ]
  have hne : ("/usr" : String) ≠ "" := by decide
  rw [goJoin2, if_pos hne]
  have harg : "/usr".data ++ '/' :: p.data = ['/', 'u', 's', 'r', '/'] ++ '/' :: rest := by
    simp [hrest]
  show ∃ t, goCleanL ("/usr".data ++ '/' :: p.data) = '/' :: 'u' :: t
  rw [harg]
  have hddrest : ['.', '.'] ∉ splitCh '/' rest := by
    rw [hrest, splitCh_cons_of_eq] at hdd
    exact fun hm => hdd (List.mem_cons_of_mem _ hm)
  rw [goCleanL_rooted_no_dotdot _ (by simp) (by simp)]
  · rw [splitCh_usr_join rest]
    have hfilter :
        (([] :: ['u', 's', 'r'] :: [] :: splitCh '/' rest).filter
          (fun c => decide (c ≠ []) && decide (c ≠ ['.']))) =
        ['u', 's', 'r'] :: (splitCh '/' rest).filter
          (fun c => decide (c ≠ []) && decide (c ≠ ['.'])) := rfl
    rw [hfilter]
    cases hT : (splitCh '/' rest).filter (fun c => decide (c ≠ []) && decide (c ≠ ['.'])) with
    | nil => exact ⟨['s', 'r'], rfl⟩
    | cons y ys => exact ⟨['s', 'r'] ++ '/' :: joinCh '/' (y :: ys), rfl⟩
  · rw [splitCh_usr_join rest]
    intro hmem
    simp only [List.mem_cons] at hmem
    rcases hmem with h | h | h | hmem
    · exact absurd h (by decide)
    · exact absurd h (by decide)
    · exact absurd h (by decide)
    · exact hddrest hmem

theorem mergeUsrApplies_of_usr (q : String) (h : ∃ t, q.data = '/' :: 'u' :: t) :
    mergeUsrApplies q = false := by
  obtain ⟨t, ht⟩ := h
  simp [mergeUsrApplies, goHasPrefix, ht, hasPrefixL]

/-!
C10 counterexample: `filepath.Join` cleans `..` segments, so a first
application of `MergeUsr` can *expose* a mergeable prefix that the second
application then rewrites again.
-/

/-- C10, counterexample: the claim "`MergeUsr` is idempotent: for every
path string p, `MergeUsr(MergeUsr(p))` equals `MergeUsr(p)`" is false at
`p = "/bin/../../bin/foo"`: the first application yields `"/bin/foo"`
(the `Join` with `"/usr"` cleans the `..` segments away), and the second
application rewrites that to `"/usr/bin/foo"`. -/
theorem C10_mergeUsr_idem_counterexample :
    mergeUsr "/bin/../../bin/foo" = "/bin/foo" ∧
      mergeUsr (mergeUsr "/bin/../../bin/foo") = "/usr/bin/foo" ∧
      mergeUsr (mergeUsr "/bin/../../bin/foo") ≠ mergeUsr "/bin/../../bin/foo" := by
  refine ⟨by decide, by decide, by decide⟩

/-- C10, amended: `MergeUsr` is idempotent on every path that contains no
`..` component (in particular on every path already rewritten from a
clean path, and on every path that already starts with `/usr`). -/
theorem C10_mergeUsr_idem (p : String) (hdd : ['.', '.'] ∉ splitCh '/' p.data) :
    mergeUsr (mergeUsr p) = mergeUsr p := by
  by_cases happ : mergeUsrApplies p = true
  · have hu := mergeUsr_starts_usr p hdd happ
    rw [mergeUsr_eq (mergeUsr p), if_neg (by simp [mergeUsrApplies_of_usr _ hu])]
  · have hfix : mergeUsr p = p := by
      rw [mergeUsr_eq, if_neg (by simpa using happ)]
    rw [hfix, hfix]

/-- C10 witness: the amended idempotence at the concrete path `/bin/foo`. -/
theorem C10_mergeUsr_idem_witness :
    mergeUsr (mergeUsr "/bin/foo") = mergeUsr "/bin/foo" :=
  C10_mergeUsr_idem "/bin/foo" (by decide)

/-- C7, counterexample: the claim "MergeUsr(p) returns p with `/usr`
prepended when p begins with `/bin/`, `/sbin/`, `/lib/`, or `/lib64/`,
and returns p unchanged for every other path" is false: `/libexec/foo`
begins with none of those four slash-terminated prefixes, yet it is
rewritten (the source matches the bare prefix `/lib`); and
`/bin/../x` is rewritten to `/usr/x`, not to `/usr` ++ `/bin/../x`
(the source uses `filepath.Join`, which cleans the result). -/
theorem C7_mergeUsr_counterexample :
    mergeUsr "/libexec/foo" = "/usr/libexec/foo" ∧
      ("/usr/libexec/foo" : String) ≠ "/libexec/foo" ∧
      mergeUsr "/bin/../x" = "/usr/x" ∧
      ("/usr/x" : String) ≠ "/usr" ++ "/bin/../x" := by
  refine ⟨by decide, by decide, by decide, by decide⟩

/-- C7, amended: `MergeUsr(p)` rewrites `p` exactly when `p` begins with
one of the bare prefixes `/bin`, `/sbin`, `/lib`, `/lib64` (no trailing
slash required); on such a `p` in canonical absolute form the result is
`p` with `/usr` prepended, and every other path is returned unchanged. -/
theorem C7_mergeUsr_characterization (p : String) :
    (mergeUsrApplies p = false → mergeUsr p = p) ∧
      (mergeUsrApplies p = true → normalAbs p = true → mergeUsr p = "/usr" ++ p) := by
  constructor
  · intro h
    rw [mergeUsr_eq, if_neg (by simp [h])]
  · intro happ hp
    exact mergeUsr_of_normalAbs p hp happ

/-- C7 witness: the characterization applied at `/bin/foo` (rewritten)
and at `/etc/foo` (unchanged). -/
theorem C7_mergeUsr_characterization_witness :
    mergeUsr "/bin/foo" = "/usr" ++ "/bin/foo" ∧ mergeUsr "/etc/foo" = "/etc/foo" :=
  ⟨(C7_mergeUsr_characterization "/bin/foo").2 (by decide) (by decide),
    (C7_mergeUsr_characterization "/etc/foo").1 (by decide)⟩

/-- C2, counterexample: the claim "HasMergedUsr returns true whenever at
least one of /bin and /lib is a symlink" is false: when `/bin` is present
and not a symlink the loop returns false immediately, even though `/lib`
is a symlink. -/
theorem C2_hasMergedUsr_counterexample :
    (fun d => if d = "/bin" then some LstatKind.other
              else if d = "/lib" then some LstatKind.symlink
              else none : String → Option LstatKind) "/lib" = some LstatKind.symlink ∧
    hasMergedUsr (fun d => if d = "/bin" then some LstatKind.other
              else if d = "/lib" then some LstatKind.symlink
              else none) = false := by
  refine ⟨by decide, by decide⟩

/-- C2, amended: `HasMergedUsr` inspects `/bin` and then `/lib`, in that
order, and stops at the first decisive entry: it returns true iff `/bin`
is missing, or `/bin` is a symlink and `/lib` is missing or a symlink.
In particular a present non-symlink `/bin` yields false regardless of
`/lib`, and a missing `/bin` yields true regardless of `/lib`. -/
theorem C2_hasMergedUsr_characterization (lstat : String → Option LstatKind) :
    hasMergedUsr lstat = true ↔
      (lstat "/bin" = none ∨
        (lstat "/bin" = some .symlink ∧
          (lstat "/lib" = none ∨ lstat "/lib" = some .symlink))) := by
  simp only [hasMergedUsr, hasMergedUsrLoop]
  cases hb : lstat "/bin" with
  | none => simp
  | some kb =>
    cases kb <;> cases hl : lstat "/lib" with
    | none => simp [hasMergedUsrLoop]
    | some kl => cases kl <;> simp [hasMergedUsrLoop]

/-! ## `internal/archive`: compression format parsing (`ExtractFormatLevel`) -/

/-- `strings.Cut(s, ":")`: the text before the first `:`, the text after
it, and whether a `:` was found. -/
def goCut (s : String) : String × String × Bool :=
  match splitCh ':' s.data with
  | [] => (s, "", false)
  | [x] => (⟨x⟩, "", false)
  | x :: y :: ys => (⟨x⟩, ⟨joinCh ':' (y :: ys)⟩, true)

/-- `strings.ToLower` (ASCII-relevant part; the program only compares the
result against ASCII literals). -/
def goToLower (s : String) : String := ⟨s.data.map Char.toLower⟩

/-- `archive.ExtractFormatLevel(s)`: parse `fmt[:level]`; an unknown or
absent level falls back to `default`, an unknown format to `gzip`, and
`lzma` forces the level to `default`. -/
def extractFormatLevel (s : String) : String × String :=
  let c := goCut s
  let l := if c.2.2 then c.2.1 else "default"
  let level := goToLower l
  let format := goToLower c.1
  let level1 := if level = "best" then level
    else if level = "default" then level
    else if level = "fast" then level
    else "default"
  let format1 := if format = "gzip" then format
    else if format = "lzma" then format
    else if format = "lz4" then format
    else if format = "none" then format
    else if format = "zstd" then format
    else "gzip"
  let level2 := if format = "lzma" then "default" else level1
  (format1, level2)

example : extractFormatLevel "zstd:best" = ("zstd", "best") := by decide
example : extractFormatLevel "lzma:fast" = ("lzma", "default") := by decide
example : extractFormatLevel "ZSTD" = ("zstd", "default") := by decide
example : extractFormatLevel "foo:bar" = ("gzip", "default") := by decide

theorem extractFormatLevel_format_mem (s : String) :
    (extractFormatLevel s).1 = "gzip" ∨ (extractFormatLevel s).1 = "lzma" ∨
      (extractFormatLevel s).1 = "lz4" ∨ (extractFormatLevel s).1 = "none" ∨
      (extractFormatLevel s).1 = "zstd" := by
  simp only [extractFormatLevel]
  by_cases h1 : goToLower (goCut s).1 = "gzip" <;>
    by_cases h2 : goToLower (goCut s).1 = "lzma" <;>
      by_cases h3 : goToLower (goCut s).1 = "lz4" <;>
        by_cases h4 : goToLower (goCut s).1 = "none" <;>
          by_cases h5 : goToLower (goCut s).1 = "zstd" <;>
            simp [h1, h2, h3, h4, h5]

theorem extractFormatLevel_level_mem (s : String) :
    (extractFormatLevel s).2 = "best" ∨ (extractFormatLevel s).2 = "default" ∨
      (extractFormatLevel s).2 = "fast" := by
  simp only [extractFormatLevel]
  by_cases hf : goToLower (goCut s).1 = "lzma"
  · simp [hf]
  · rw [if_neg hf]
    by_cases h1 : goToLower (if (goCut s).2.2 = true then (goCut s).2.1 else "default") = "best" <;>
      by_cases h2 :
          goToLower (if (goCut s).2.2 = true then (goCut s).2.1 else "default") = "default" <;>
        by_cases h3 :
            goToLower (if (goCut s).2.2 = true then (goCut s).2.1 else "default") = "fast" <;>
          simp [h1, h2, h3]

theorem extractFormatLevel_lzma_default (s : String)
    (h : (extractFormatLevel s).1 = "lzma") : (extractFormatLevel s).2 = "default" := by
  simp only [extractFormatLevel] at h ⊢
  by_cases hf : goToLower (goCut s).1 = "lzma"
  · simp [hf]
  · exfalso
    by_cases h1 : goToLower (goCut s).1 = "gzip" <;>
      by_cases h3 : goToLower (goCut s).1 = "lz4" <;>
        by_cases h4 : goToLower (goCut s).1 = "none" <;>
          by_cases h5 : goToLower (goCut s).1 = "zstd" <;>
            simp [h1, hf, h3, h4, h5] at h

/-- C8, confirmed: `ExtractFormatLevel` is idempotent — for every input
string `s`, if parsing yields `(format, level)`, then re-emitting
`format ++ ":" ++ level` and parsing again yields the same pair. -/
theorem C8_extractFormatLevel_idem (s : String) :
    extractFormatLevel ((extractFormatLevel s).1 ++ ":" ++ (extractFormatLevel s).2) =
      extractFormatLevel s := by
  rcases extractFormatLevel_format_mem s with hf | hf | hf | hf | hf <;>
    rcases extractFormatLevel_level_mem s with hl | hl | hl <;>
      first
      | (rw [hf, hl]
         refine Prod.ext_iff.mpr ⟨?_, ?_⟩
         · rw [hf]; decide
         · rw [hl]; decide)
      | exact absurd (extractFormatLevel_lzma_default s hf) (by simp [hl])

/-! ## `pkgs/deviceinfo`: key-to-field-name conversion -/

/-- `strings.ToUpper(p[:1]) + p[1:]`: upper-case the first character. -/
def capitalizeGo : List Char → List Char
  | [] => []
  | c :: rest => c.toUpper :: rest

/-- The loop body of `deviceinfo.nameToField`: skip a `deviceinfo`
segment, skip an empty segment, otherwise append it capitalized. -/
def ntfStep (field p : List Char) : List Char :=
  if p = "deviceinfo".data then field
  else if p.length < 1 then field
  else field ++ capitalizeGo p

/-- `deviceinfo.nameToField(name)`: split on `_` and fold the loop body. -/
def nameToField (name : String) : String :=
  ⟨(splitCh '_' name.data).foldl ntfStep []⟩

/-- The segments the loop body keeps. -/
def ntfKeep (p : List Char) : Bool :=
  decide (p ≠ []) && decide (p ≠ "deviceinfo".data)

/-- The conversion the claim describes: the PascalCase of the snake_case
key with (only) empty segments dropped. -/
def pascalCaseDropEmpty (name : String) : String :=
  ⟨(((splitCh '_' name.data).filter (fun p => decide (p ≠ []))).map capitalizeGo).flatten⟩

/-- Like `pascalCaseDropEmpty`, but — as the source actually does — also
dropping every segment equal to `deviceinfo`, wherever it occurs. -/
def pascalCaseDropDeviceinfo (name : String) : String :=
  ⟨(((splitCh '_' name.data).filter ntfKeep).map capitalizeGo).flatten⟩

theorem nameToField_foldl_append (parts : List (List Char)) (acc : List Char) :
    parts.foldl ntfStep acc =
      acc ++ ((parts.filter ntfKeep).map capitalizeGo).flatten := by
  induction parts generalizing acc with
  | nil => simp
  | cons p ps ih =>
    rw [List.foldl_cons, ih, List.filter_cons]
    by_cases hdev : p = "deviceinfo".data
    · have h1 : ntfStep acc p = acc := by simp [ntfStep, hdev]
      have h2 : ntfKeep p = false := by simp [ntfKeep, hdev]
      rw [h1, h2]
      simp
    · by_cases hnil : p = []
      · have h1 : ntfStep acc p = acc := by simp [ntfStep, hdev, hnil]
        have h2 : ntfKeep p = false := by simp [ntfKeep, hnil]
        rw [h1, h2]
        simp
      · have h1 : ntfStep acc p = acc ++ capitalizeGo p := by
          have hlen : ¬p.length < 1 := by simpa [Nat.lt_one_iff] using hnil
          simp [ntfStep, hdev, hlen]
        have h2 : ntfKeep p = true := by simp [ntfKeep, hdev, hnil]
        rw [h1, h2]
        simp

/-- C9, counterexample: the claim says `nameToField(s)` equals the
PascalCase of `s` with empty segments dropped; but the source also drops
every segment equal to `deviceinfo`, wherever it occurs, so
`nameToField("a_deviceinfo_b") = "AB"` while the claimed PascalCase is
`"ADeviceinfoB"`. -/
theorem C9_nameToField_counterexample :
    nameToField "a_deviceinfo_b" = "AB" ∧
      pascalCaseDropEmpty "a_deviceinfo_b" = "ADeviceinfoB" ∧
      ("AB" : String) ≠ "ADeviceinfoB" := by
  refine ⟨by decide, by decide, by decide⟩

/-- C9, amended: for every key `s`, `nameToField("deviceinfo_" ++ s)`
equals `nameToField(s)`, and both equal the PascalCase of `s` with empty
segments *and segments equal to `deviceinfo`* dropped. -/
theorem C9_nameToField_characterization (s : String) :
    nameToField ("deviceinfo_" ++ s) = nameToField s ∧
      nameToField s = pascalCaseDropDeviceinfo s := by
  constructor
  · apply String.ext
    show ((splitCh '_' ("deviceinfo_" ++ s).data).foldl _ []) = _
    have hdata : ("deviceinfo_" ++ s).data = "deviceinfo".data ++ '_' :: s.data := by
      rw [String.data_append]
      rfl
    rw [hdata, splitCh_append_sep '_' _ _ (by decide)]
    rw [List.foldl_cons,
      show ntfStep [] ['d', 'e', 'v', 'i', 'c', 'e', 'i', 'n', 'f', 'o'] = [] from by decide]
    rfl
  · apply String.ext
    show ((splitCh '_' s.data).foldl _ []) = _
    rw [nameToField_foldl_append]
    rfl

/-- C9 witness: the characterization at the concrete key
`initfs_compression`. -/
theorem C9_nameToField_witness :
    nameToField ("deviceinfo_" ++ "initfs_compression") = nameToField "initfs_compression" ∧
      nameToField "initfs_compression" = pascalCaseDropDeviceinfo "initfs_compression" :=
  C9_nameToField_characterization "initfs_compression"

/-! ## `pkgs/filelist/modules`: `modules.dep` resolution -/

/-- The characters the source's `splitRe = regexp.MustCompile("[-_]+")`
matches. -/
def isSepChar (c : Char) : Bool := c = '-' || c = '_'

/-- Whitespace for `strings.Fields` (the separators that occur on
`modules.dep` lines; `bufio.Scanner` has already removed the newline). -/
def isWsChar (c : Char) : Bool := c = ' ' || c = '\t'

/-- The matcher the source builds with
`regexp.MustCompile("^" + splitRe.ReplaceAllString(modName, "[-_]+") + "$")`:
anchored at both ends, literal characters must match exactly, and every
maximal run of `-`/`_` in the requested name matches any nonempty run of
`-`/`_` in the key.  (This embeds the constructed regex for names over
ordinary, non-metacharacter alphabets.) -/
def nameMatch : List Char → List Char → Bool
  | [], [] => true
  | [], _ :: _ => false
  | c :: ms, k =>
    if isSepChar c then
      decide (k.takeWhile isSepChar ≠ []) &&
        nameMatch (ms.dropWhile isSepChar) (k.dropWhile isSepChar)
    else
      match k with
      | [] => false
      | d :: ks => decide (c = d) && nameMatch ms ks
termination_by m _ => m.length
decreasing_by
  · exact Nat.lt_succ_of_le ((List.dropWhile_suffix _).sublist.length_le)
  · exact Nat.lt_succ_of_le (Nat.le_refl _)

/-- Canonical form for run-insensitive comparison: every maximal run of
`-`/`_` becomes a single `-`. -/
def collapseRuns : List Char → List Char
  | [] => []
  | [c] => if isSepChar c then ['-'] else [c]
  | c :: d :: rest =>
    if isSepChar c && isSepChar d then collapseRuns (d :: rest)
    else (if isSepChar c then '-' else c) :: collapseRuns (d :: rest)

theorem collapseRuns_cons_sep' : ∀ (ms : List Char) (c : Char), isSepChar c = true →
    collapseRuns (c :: ms) = '-' :: collapseRuns (ms.dropWhile isSepChar) := by
  intro ms
  induction ms with
  | nil => intro c hc; simp [collapseRuns, hc]
  | cons d rest ih =>
    intro c hc
    by_cases hd : isSepChar d = true
    · rw [show collapseRuns (c :: d :: rest) = collapseRuns (d :: rest) from by
        simp [collapseRuns, hc, hd]]
      rw [ih d hd]
      simp [List.dropWhile, hd]
    · rw [show collapseRuns (c :: d :: rest) = '-' :: collapseRuns (d :: rest) from by
        simp [collapseRuns, hc, hd]]
      simp [List.dropWhile, hd]

theorem collapseRuns_cons_sep (c : Char) (hc : isSepChar c = true) (ms : List Char) :
    collapseRuns (c :: ms) = '-' :: collapseRuns (ms.dropWhile isSepChar) :=
  collapseRuns_cons_sep' ms c hc

theorem collapseRuns_cons_lit (c : Char) (hc : isSepChar c = false) (ms : List Char) :
    collapseRuns (c :: ms) = c :: collapseRuns ms := by
  cases ms with
  | nil => simp [collapseRuns, hc]
  | cons d rest => simp [collapseRuns, hc]

theorem collapseRuns_ne_nil (k : List Char) (h : k ≠ []) : collapseRuns k ≠ [] := by
  cases k with
  | nil => exact absurd rfl h
  | cons d ks =>
    by_cases hd : isSepChar d = true
    · rw [collapseRuns_cons_sep d hd ks]; simp
    · rw [collapseRuns_cons_lit d (by simpa using hd) ks]; simp

theorem sep_ne_dash_of_not_sep (c : Char) (hc : isSepChar c = false) : c ≠ '-' := by
  rintro rfl
  simp [isSepChar] at hc

/-- The matcher accepts exactly the keys with the same canonical form as
the requested name: any maximal run of `-`/`_` is interchangeable with
any other. -/
theorem nameMatch_iff : ∀ n m k, m.length ≤ n →
    (nameMatch m k = true ↔ collapseRuns m = collapseRuns k) := by
  intro n
  induction n with
  | zero =>
    intro m k hm
    have : m = [] := List.length_eq_zero.mp (Nat.le_zero.mp hm)
    subst this
    cases k with
    | nil => simp [nameMatch, collapseRuns]
    | cons d ks =>
      simp only [nameMatch, collapseRuns]
      constructor
      · intro h; exact absurd h (by simp)
      · intro h; exact absurd h.symm (collapseRuns_ne_nil (d :: ks) (by simp))
  | succ n ih =>
    intro m k hm
    cases m with
    | nil =>
      cases k with
      | nil => simp [nameMatch, collapseRuns]
      | cons d ks =>
        simp only [nameMatch, collapseRuns]
        constructor
        · intro h; exact absurd h (by simp)
        · intro h; exact absurd h.symm (collapseRuns_ne_nil (d :: ks) (by simp))
    | cons c ms =>
      have hms : ms.length ≤ n := Nat.lt_succ_iff.mp hm
      by_cases hc : isSepChar c = true
      · rw [show nameMatch (c :: ms) k =
            (decide (k.takeWhile isSepChar ≠ []) &&
              nameMatch (ms.dropWhile isSepChar) (k.dropWhile isSepChar)) from by
          rw [nameMatch.eq_def]; simp [hc]]
        rw [collapseRuns_cons_sep c hc ms]
        cases k with
        | nil =>
          simp [List.takeWhile]
          intro h
          exact absurd h.symm (by simp [collapseRuns])
        | cons d ks =>
          by_cases hd : isSepChar d = true
          · have htake : ((d :: ks).takeWhile isSepChar ≠ []) := by
              simp [List.takeWhile, hd]
            have hdrop : (d :: ks).dropWhile isSepChar = ks.dropWhile isSepChar := by
              simp [List.dropWhile, hd]
            rw [collapseRuns_cons_sep d hd ks, hdrop]
            have hrec := ih (ms.dropWhile isSepChar) (ks.dropWhile isSepChar)
              (le_trans ((List.dropWhile_suffix _).sublist.length_le) hms)
            simp [htake, hrec]
          · have htake : ((d :: ks).takeWhile isSepChar = []) := by
              simp [List.takeWhile, hd]
            rw [collapseRuns_cons_lit d (by simpa using hd) ks]
            simp [htake]
            intro h
            exact absurd h.symm (sep_ne_dash_of_not_sep d (by simpa using hd))
      · have hc' : isSepChar c = false := by simpa using hc
        rw [show nameMatch (c :: ms) k =
            (match k with
             | [] => false
             | d :: ks => decide (c = d) && nameMatch ms ks) from by
          rw [nameMatch.eq_def]; simp [hc']]
        rw [collapseRuns_cons_lit c hc' ms]
        cases k with
        | nil =>
          simp
          exact fun h => absurd h.symm (by simp [collapseRuns])
        | cons d ks =>
          by_cases hd : isSepChar d = true
          · rw [collapseRuns_cons_sep d hd ks]
            simp only [Bool.and_eq_true, decide_eq_true_eq]
            constructor
            · rintro ⟨rfl, -⟩
              simp [isSepChar] at hc' hd
              rcases hd with rfl | rfl <;> simp_all
            · intro h
              have : c = '-' := by
                have := congrArg List.headI h
                simpa using this
              exact absurd this (sep_ne_dash_of_not_sep c hc')
          · rw [collapseRuns_cons_lit d (by simpa using hd) ks]
            have hrec := ih ms ks hms
            simp only [Bool.and_eq_true, decide_eq_true_eq, List.cons.injEq]
            constructor
            · rintro ⟨rfl, hmk⟩
              exact ⟨rfl, hrec.mp hmk⟩
            · rintro ⟨rfl, hck⟩
              exact ⟨rfl, hrec.mpr hck⟩

/-- Boolean form of `nameMatch_iff`, used to evaluate the matcher. -/
theorem nameMatch_eq_decide (m k : List Char) :
    nameMatch m k = decide (collapseRuns m = collapseRuns k) := by
  rcases hb : nameMatch m k with - | -
  · rcases hd : decide (collapseRuns m = collapseRuns k) with - | -
    · rfl
    · have := (nameMatch_iff m.length m k le_rfl).mpr (of_decide_eq_true hd)
      rw [this] at hb
      exact hb.symm
  · have := (nameMatch_iff m.length m k le_rfl).mp hb
    rw [decide_eq_true this]

/-- `strings.Fields` accumulator: `cur` holds the reversed characters of
the word being read. -/
def goFieldsAux : List Char → List Char → List (List Char)
  | cur, [] => if cur = [] then [] else [cur.reverse]
  | cur, c :: cs =>
    if isWsChar c then
      if cur = [] then goFieldsAux [] cs else cur.reverse :: goFieldsAux [] cs
    else goFieldsAux (c :: cur) cs

/-- `strings.Fields(line)`: the maximal runs of non-whitespace characters. -/
def goFields (l : List Char) : List (List Char) := goFieldsAux [] l

example : goFields "a.d/mymod.ko:  dep.ko".data = ["a.d/mymod.ko:".data, "dep.ko".data] := by
  decide

/-- `strings.TrimSuffix(s, ":")`. -/
def trimSuffixColon (s : List Char) : List Char :=
  if s.getLast? = some ':' then s.dropLast else s

/-- `modules.stripExts(file)` = `strings.Split(file, ".")[0]`: everything
after the first `.` of the whole path is stripped. -/
def stripExts (file : List Char) : List Char := (splitCh '.' file).headI

/-- The canonical key the source computes for a `modules.dep` line:
`filepath.Base(stripExts(fields[0]))` — extensions are stripped from the
whole path *before* taking the base name. -/
def keyOf (f : List Char) : List Char := goBaseL (stripExts f)

/-- The canonical key the claim (and spec) describe: the base name of the
module path with every suffix after the first `.` stripped — base name
*first*, then extension stripping. -/
def keyOfSpec (f : List Char) : List Char := stripExts (goBaseL f)

example : keyOf "kernel/drivers/watchdog/dw_wdt.ko.xz".data = "dw_wdt".data := by decide
example : keyOfSpec "kernel/drivers/watchdog/dw_wdt.ko.xz".data = "dw_wdt".data := by decide
example : keyOf "a.d/mymod.ko".data = "a".data := by decide
example : keyOfSpec "a.d/mymod.ko".data = "mymod".data := by decide

/-- `modules.getModuleDeps(modName, modulesDep)`: scan the lines in order;
on the first line whose canonical key matches, return all its fields with
the trailing `:` removed from the first; otherwise return nothing. -/
def getModuleDeps (modName : List Char) : List (List Char) → List (List Char)
  | [] => []
  | ln :: rest =>
    match goFields ln with
    | [] => getModuleDeps modName rest
    | f0 :: fs =>
      let f0' := trimSuffixColon f0
      if nameMatch modName (keyOf f0') then f0' :: fs
      else getModuleDeps modName rest

/-- The resolution the claim describes: identical, except that the key is
computed base-name-first (`keyOfSpec`). -/
def getModuleDepsSpec (modName : List Char) : List (List Char) → List (List Char)
  | [] => []
  | ln :: rest =>
    match goFields ln with
    | [] => getModuleDepsSpec modName rest
    | f0 :: fs =>
      let f0' := trimSuffixColon f0
      if nameMatch modName (keyOfSpec f0') then f0' :: fs
      else getModuleDepsSpec modName rest

/-- Does a `modules.dep` line match the requested module name? -/
def moduleLineMatches (modName ln : List Char) : Bool :=
  decide (goFields ln ≠ []) &&
    nameMatch modName (keyOf (trimSuffixColon (goFields ln).headI))

/-- C5, counterexample: the claim computes the key as "the base name of
the module path with every suffix after the first '.' stripped", but the
source strips extensions from the *whole path* first and only then takes
the base name (`filepath.Base(stripExts(fields[0]))`).  On a line whose
directory part contains a dot, the two disagree: for the line
`a.d/mymod.ko: dep.ko` and requested name `mymod`, the claim's key is
`mymod` (a match), while the source's key is `a` (no match), so the
source returns the empty result where the claim requires the line. -/
theorem C5_getModuleDeps_counterexample :
    getModuleDeps "mymod".data ["a.d/mymod.ko: dep.ko".data] = [] ∧
      getModuleDepsSpec "mymod".data ["a.d/mymod.ko: dep.ko".data] =
        ["a.d/mymod.ko".data, "dep.ko".data] := by
  constructor
  · simp [getModuleDeps, nameMatch_eq_decide]
    decide
  · simp [getModuleDepsSpec, nameMatch_eq_decide]
    decide

/-- C5, amended: resolution scans the lines of `modules.dep` in order and
returns, for the first matching line, its module path (trailing `:`
stripped) together with its dependency paths, and the empty result when
no line matches; a line's canonical key is `stripExts` applied to the
whole module path (everything after the first `.` of the path dropped)
followed by `filepath.Base`; the requested name matches the key exactly,
anchored over the full key, up to treating every maximal run of `-`/`_`
characters as interchangeable (formally: the match succeeds iff the two
strings are equal after collapsing every maximal `-`/`_` run to `-`). -/
theorem C5_getModuleDeps_characterization (modName : List Char) (lines : List (List Char)) :
    (getModuleDeps modName lines =
      match lines.find? (moduleLineMatches modName) with
      | some ln => trimSuffixColon (goFields ln).headI :: (goFields ln).tail
      | none => []) ∧
    (∀ m k : List Char, nameMatch m k = true ↔ collapseRuns m = collapseRuns k) := by
  constructor
  · induction lines with
    | nil => simp [getModuleDeps]
    | cons ln rest ih =>
      have hstep : getModuleDeps modName (ln :: rest) =
          match goFields ln with
          | [] => getModuleDeps modName rest
          | f0 :: fs =>
            if nameMatch modName (keyOf (trimSuffixColon f0)) then trimSuffixColon f0 :: fs
            else getModuleDeps modName rest := rfl
      rcases hf : goFields ln with - | ⟨f0, fs⟩
      · have hml : moduleLineMatches modName ln = false := by
          simp [moduleLineMatches, hf]
        rw [hstep, hf, List.find?_cons_of_neg _ (by simp [hml])]
        simpa using ih
      · by_cases hm : nameMatch modName (keyOf (trimSuffixColon f0)) = true
        · have hml : moduleLineMatches modName ln = true := by
            simp [moduleLineMatches, hf, hm]
          rw [hstep, hf, List.find?_cons_of_pos _ (by simp [hml])]
          simp [hm, hf]
        · have hml : moduleLineMatches modName ln = false := by
            simp only [moduleLineMatches, hf]
            simpa using hm
          rw [hstep, hf, List.find?_cons_of_neg _ (by simp [hml])]
          simpa [hm] using ih
  · intro m k
    exact nameMatch_iff m.length m k le_rfl

/-- C5 witness: the characterization at a concrete `modules.dep`
(resolving `dw-wdt` against a `dw_wdt.ko.xz` line, second line matching). -/
theorem C5_getModuleDeps_witness :
    getModuleDeps "dw-wdt".data
        ["kernel/w/watchdog.ko.xz:".data,
         "kernel/w/dw_wdt.ko.xz: kernel/w/watchdog.ko.xz".data] =
      ["kernel/w/dw_wdt.ko.xz".data, "kernel/w/watchdog.ko.xz".data] := by
  have h := (C5_getModuleDeps_characterization "dw-wdt".data
    ["kernel/w/watchdog.ko.xz:".data,
     "kernel/w/dw_wdt.ko.xz: kernel/w/watchdog.ko.xz".data]).1
  have h1 : moduleLineMatches "dw-wdt".data "kernel/w/watchdog.ko.xz:".data = false := by
    simp only [moduleLineMatches, nameMatch_eq_decide]
    decide
  have h2 : moduleLineMatches "dw-wdt".data
      "kernel/w/dw_wdt.ko.xz: kernel/w/watchdog.ko.xz".data = true := by
    simp only [moduleLineMatches, nameMatch_eq_decide]
    decide
  rw [h, List.find?_cons_of_neg _ (by simp [h1]), List.find?_cons_of_pos _ (by simp [h2])]
  decide

/-! ## `internal/archive`: the sorted `archiveItems` collection -/

/-- The cpio header fields the program sets (`go-cpio` `cpio.Header`). -/
structure CpioHeader where
  name : String
  mode : Nat
  size : Int
  linkname : String
deriving DecidableEq

/-- `archiveItem`: a header plus the host source path. -/
structure ArchiveItem where
  header : CpioHeader
  sourcePath : String
deriving DecidableEq

/-- `cpio.ModeDir` (octal `040000`). -/
def cpioModeDir : Nat := 0o40000

/-- `cpio.ModeSymlink` (octal `0120000`). -/
def cpioModeSymlink : Nat := 0o120000

/-- `strings.Compare(a, b) <= 0` on character lists: lexicographic
comparison (Go compares the UTF-8 bytes; byte order and code-point order
agree on valid UTF-8). -/
def strLeB : List Char → List Char → Bool
  | [], _ => true
  | _ :: _, [] => false
  | c :: cs, d :: ds => if c < d then true else if d < c then false else strLeB cs ds

/-- `strings.Compare(a, b) <= 0`. -/
def goStrLe (a b : String) : Bool := strLeB a.data b.data

theorem strLeB_iff_not_lex : ∀ a b : List Char,
    strLeB a b = true ↔ ¬ List.Lex (· < ·) b a
  | [], b => by
    exact iff_of_true rfl (List.Lex.not_nil_right _ _)
  | c :: cs, [] => by
    exact iff_of_false (by simp [strLeB]) (by simp [List.Lex.nil])
  | c :: cs, d :: ds => by
    simp only [strLeB]
    by_cases hcd : c < d
    · rw [if_pos hcd]
      refine iff_of_true rfl ?_
      intro h
      cases h with
      | cons h => exact absurd hcd (lt_irrefl _)
      | rel h => exact absurd hcd (not_lt.mpr (le_of_lt h))
    · rw [if_neg hcd]
      by_cases hdc : d < c
      · rw [if_pos hdc]
        exact iff_of_false (by simp) (by simp [List.Lex.rel hdc])
      · rw [if_neg hdc]
        have hceq : c = d := le_antisymm (not_lt.mp hdc) (not_lt.mp hcd)
        subst hceq
        rw [strLeB_iff_not_lex cs ds]
        constructor
        · intro h hl
          cases hl with
          | cons h' => exact h h'
          | rel h' => exact absurd h' (lt_irrefl _)
        · intro h hl
          exact h (List.Lex.cons hl)

/-- The Go comparison agrees with Mathlib's linear order on `String`. -/
theorem goStrLe_iff (a b : String) : goStrLe a b = true ↔ a ≤ b := by
  have h := strLeB_iff_not_lex a.data b.data
  have hlt : (b < a) ↔ List.Lex (· < ·) b.data a.data := by
    rw [String.lt_iff_toList_lt]
    exact Iff.rfl
  rw [goStrLe, h]
  exact not_congr hlt.symm

/-- The loop of Go's `sort.Search` (binary search for the least index
where `f` holds, assuming `f` is monotone).  The loop runs while
`i < j`, halving the interval each iteration; the `fuel` argument is a
structural-recursion bound, sufficient whenever `j - i ≤ fuel`. -/
def sortSearchLoop (f : Nat → Bool) : Nat → Nat → Nat → Nat
  | 0, i, _ => i
  | fuel + 1, i, j =>
    if i < j then
      let m := (i + j) / 2
      if f m then sortSearchLoop f fuel i m else sortSearchLoop f fuel (m + 1) j
    else i

/-- `sort.Search(n, f)`. -/
def sortSearch (n : Nat) (f : Nat → Bool) : Nat := sortSearchLoop f n 0 n

/-- The zero `archiveItem` (Go's zero value, used only as the default for
out-of-range indexing, which never occurs). -/
def dfltItem : ArchiveItem := ⟨⟨"", 0, 0, ""⟩, ""⟩

/-- `archiveItems.add(item)`: binary-insert keeping the list sorted by
header name; an item whose name is already present is dropped. -/
def archiveItemsAdd (items : List ArchiveItem) (item : ArchiveItem) : List ArchiveItem :=
  if items.length < 1 then items ++ [item]
  else
    let i := sortSearch items.length
      (fun k => goStrLe item.header.name (items.getD k dfltItem).header.name)
    if items.length ≤ i then items ++ [item]
    else if (items.getD i dfltItem).header.name = item.header.name then items
    else items.take i ++ item :: items.drop i

theorem sortSearchLoop_spec (f : Nat → Bool) :
    ∀ fuel i j, i ≤ j → j - i ≤ fuel →
      (∀ k l, i ≤ k → k ≤ l → l < j → f k = true → f l = true) →
      i ≤ sortSearchLoop f fuel i j ∧ sortSearchLoop f fuel i j ≤ j ∧
        (∀ k, i ≤ k → k < sortSearchLoop f fuel i j → f k = false) ∧
        (sortSearchLoop f fuel i j < j → f (sortSearchLoop f fuel i j) = true) := by
  intro fuel
  induction fuel with
  | zero =>
    intro i j hij hfuel mono
    have hji : j = i := by omega
    subst hji
    simp only [sortSearchLoop]
    exact ⟨le_rfl, le_rfl, fun k hk hk' => absurd (lt_of_le_of_lt hk hk') (lt_irrefl _),
      fun h => absurd h (lt_irrefl _)⟩
  | succ fuel ih =>
    intro i j hij hfuel mono
    simp only [sortSearchLoop]
    by_cases hlt : i < j
    · rw [if_pos hlt]
      have him : i ≤ (i + j) / 2 := by omega
      have hmj : (i + j) / 2 < j := by omega
      by_cases hf : f ((i + j) / 2) = true
      · rw [if_pos hf]
        obtain ⟨h1, h2, h3, h4⟩ := ih i ((i + j) / 2) him (by omega)
          (fun k l hk hkl hl => mono k l hk hkl (by omega))
        refine ⟨h1, le_trans h2 (le_of_lt hmj), h3, ?_⟩
        intro hr
        by_cases hrm : sortSearchLoop f fuel i ((i + j) / 2) < (i + j) / 2
        · exact h4 hrm
        · have heq : sortSearchLoop f fuel i ((i + j) / 2) = (i + j) / 2 :=
            le_antisymm h2 (not_lt.mp hrm)
          rw [heq]
          exact hf
      · have hf' : f ((i + j) / 2) = false := by simpa using hf
        rw [if_neg (by simp [hf'])]
        obtain ⟨h1, h2, h3, h4⟩ := ih ((i + j) / 2 + 1) j (by omega) (by omega)
          (fun k l hk hkl hl => mono k l (by omega) hkl hl)
        refine ⟨by omega, h2, ?_, h4⟩
        intro k hk hkr
        by_cases hkm : k ≤ (i + j) / 2
        · rcases hb : f k with - | -
          · rfl
          · exact absurd (mono k ((i + j) / 2) hk hkm hmj hb) (by simp [hf'])
        · exact h3 k (by omega) hkr
    · rw [if_neg hlt]
      exact ⟨le_rfl, hij, fun k hk hk' => absurd (lt_of_le_of_lt hk hk') (lt_irrefl _),
        fun h => absurd (lt_of_le_of_lt (le_of_not_lt hlt) h) (lt_irrefl _)⟩

theorem sortSearch_spec (n : Nat) (f : Nat → Bool)
    (mono : ∀ k l, k ≤ l → l < n → f k = true → f l = true) :
    sortSearch n f ≤ n ∧ (∀ k, k < sortSearch n f → f k = false) ∧
      (sortSearch n f < n → f (sortSearch n f) = true) := by
  obtain ⟨-, h2, h3, h4⟩ := sortSearchLoop_spec f n 0 n (Nat.zero_le n) (by omega)
    (fun k l hk hkl hl => mono k l hkl hl)
  exact ⟨h2, fun k hk => h3 k (Nat.zero_le k) hk, h4⟩

/-- Ordering of archive items by header name (the collection invariant). -/
def itemLt (a b : ArchiveItem) : Prop := a.header.name < b.header.name

/-- The three possible outcomes of `archiveItems.add`. -/
theorem archiveItemsAdd_cases (items : List ArchiveItem) (it : ArchiveItem) :
    archiveItemsAdd items it = items ++ [it] ∨
      (∃ r, r < items.length ∧ (items.getD r dfltItem).header.name = it.header.name ∧
        archiveItemsAdd items it = items) ∨
      (∃ r, r ≤ items.length ∧
        archiveItemsAdd items it = items.take r ++ it :: items.drop r) := by
  by_cases hlen : items.length < 1
  · left
    simp [archiveItemsAdd, hlen]
  · simp only [archiveItemsAdd, if_neg hlen]
    set r := sortSearch items.length
      (fun k => goStrLe it.header.name (items.getD k dfltItem).header.name) with hr
    by_cases h1 : items.length ≤ r
    · left; rw [if_pos h1]
    · rw [if_neg h1]
      by_cases h2 : (items.getD r dfltItem).header.name = it.header.name
      · right; left
        exact ⟨r, not_le.mp h1, h2, by rw [if_pos h2]⟩
      · right; right
        exact ⟨r, le_of_lt (not_le.mp h1), by rw [if_neg h2]⟩

/-- `add` never removes an element. -/
theorem archiveItemsAdd_mem_old (items : List ArchiveItem) (it x : ArchiveItem)
    (hx : x ∈ items) : x ∈ archiveItemsAdd items it := by
  rcases archiveItemsAdd_cases items it with h | ⟨r, -, -, h⟩ | ⟨r, -, h⟩ <;> rw [h]
  · exact List.mem_append_left _ hx
  · exact hx
  · rw [← List.take_append_drop r items] at hx
    rcases List.mem_append.mp hx with h' | h'
    · exact List.mem_append_left _ h'
    · exact List.mem_append_right _ (List.mem_cons_of_mem _ h')

/-- After `add`, some element carries the added item's name. -/
theorem archiveItemsAdd_mem_name (items : List ArchiveItem) (it : ArchiveItem) :
    ∃ x ∈ archiveItemsAdd items it, x.header.name = it.header.name := by
  rcases archiveItemsAdd_cases items it with h | ⟨r, hr, hname, h⟩ | ⟨r, -, h⟩ <;> rw [h]
  · exact ⟨it, List.mem_append_right _ (List.mem_singleton_self it), rfl⟩
  · exact ⟨items.getD r dfltItem, by
      rw [List.getD_eq_getElem items dfltItem hr]
      exact List.getElem_mem _, hname⟩
  · exact ⟨it, List.mem_append_right _ (List.mem_cons_self _ _), rfl⟩

/-- Every element after `add` is an old element or the added item. -/
theorem archiveItemsAdd_mem_new (items : List ArchiveItem) (it x : ArchiveItem)
    (hx : x ∈ archiveItemsAdd items it) : x ∈ items ∨ x = it := by
  rcases archiveItemsAdd_cases items it with h | ⟨r, -, -, h⟩ | ⟨r, -, h⟩ <;> rw [h] at hx
  · rcases List.mem_append.mp hx with h' | h'
    · exact Or.inl h'
    · exact Or.inr (List.mem_singleton.mp h')
  · exact Or.inl hx
  · rcases List.mem_append.mp hx with h' | h'
    · exact Or.inl (List.mem_of_mem_take h')
    · rcases List.mem_cons.mp h' with h'' | h''
      · exact Or.inr h''
      · exact Or.inl (List.mem_of_mem_drop h'')

example :
    archiveItemsAdd
      (archiveItemsAdd (archiveItemsAdd [] ⟨⟨"b", 0, 0, ""⟩, "b"⟩) ⟨⟨"a", 0, 0, ""⟩, "a"⟩)
      ⟨⟨"b", 7, 7, ""⟩, "x"⟩ =
    [⟨⟨"a", 0, 0, ""⟩, "a"⟩, ⟨⟨"b", 0, 0, ""⟩, "b"⟩] := by decide

/-- `add` keeps the collection strictly sorted by name and drops an item
whose name is already present, keeping the first-added one. -/
theorem archiveItemsAdd_spec (items : List ArchiveItem) (it : ArchiveItem)
    (hs : items.Pairwise itemLt) :
    (archiveItemsAdd items it).Pairwise itemLt ∧
      ((∃ x ∈ items, x.header.name = it.header.name) → archiveItemsAdd items it = items) := by
  by_cases hlen : items.length < 1
  · have hnil : items = [] := List.length_eq_zero.mp (by omega)
    subst hnil
    constructor
    · simp [archiveItemsAdd]
    · rintro ⟨x, hx, -⟩
      exact absurd hx (List.not_mem_nil x)
  · set f := fun k => goStrLe it.header.name (items.getD k dfltItem).header.name with hfdef
    have hsorted : ∀ (k l : Nat), k < items.length → l < items.length → k < l →
        (items.getD k dfltItem).header.name < (items.getD l dfltItem).header.name := by
      intro k l hk hl hkl
      rw [List.getD_eq_getElem items dfltItem hk, List.getD_eq_getElem items dfltItem hl]
      exact List.pairwise_iff_getElem.mp hs k l hk hl hkl
    have hsorted_le : ∀ (k l : Nat), k ≤ l → l < items.length →
        (items.getD k dfltItem).header.name ≤ (items.getD l dfltItem).header.name := by
      intro k l hkl hl
      rcases eq_or_lt_of_le hkl with rfl | h
      · exact le_rfl
      · exact le_of_lt (hsorted k l (lt_trans h hl) hl h)
    have mono : ∀ k l, k ≤ l → l < items.length → f k = true → f l = true := by
      intro k l hkl hl hk
      simp only [hfdef] at hk ⊢
      rw [goStrLe_iff] at hk ⊢
      exact le_trans hk (hsorted_le k l hkl hl)
    obtain ⟨hrn, hbelow, hat⟩ := sortSearch_spec items.length f mono
    set r := sortSearch items.length f with hrdef
    have hlt : ∀ k, k < r → (items.getD k dfltItem).header.name < it.header.name := by
      intro k hk
      have hfalse := hbelow k hk
      simp only [hfdef] at hfalse
      have hnot : ¬it.header.name ≤ (items.getD k dfltItem).header.name := by
        rw [← goStrLe_iff, hfalse]
        simp
      exact not_le.mp hnot
    have hge : r < items.length → it.header.name ≤ (items.getD r dfltItem).header.name := by
      intro h
      have := hat h
      simp only [hfdef] at this
      exact (goStrLe_iff _ _).mp this
    have hdup_eq : (∃ x ∈ items, x.header.name = it.header.name) →
        r < items.length ∧ (items.getD r dfltItem).header.name = it.header.name := by
      rintro ⟨x, hx, hxname⟩
      obtain ⟨k0, hk0, hxk⟩ := List.mem_iff_getElem.mp hx
      have hgetd : items.getD k0 dfltItem = x := by
        rw [List.getD_eq_getElem items dfltItem hk0, hxk]
      have hfk0 : f k0 = true := by
        simp only [hfdef]
        rw [goStrLe_iff, hgetd, hxname]
      have hrk0 : r ≤ k0 := by
        by_contra hcon
        have := hbelow k0 (not_le.mp hcon)
        rw [hfk0] at this
        exact absurd this (by simp)
      have hrlen : r < items.length := lt_of_le_of_lt hrk0 hk0
      refine ⟨hrlen, le_antisymm ?_ (hge hrlen)⟩
      calc (items.getD r dfltItem).header.name
          ≤ (items.getD k0 dfltItem).header.name := hsorted_le r k0 hrk0 hk0
        _ = it.header.name := by rw [hgetd, hxname]
    simp only [archiveItemsAdd, if_neg hlen]
    rw [← hfdef, ← hrdef]
    by_cases h1 : items.length ≤ r
    · rw [if_pos h1]
      constructor
      · rw [List.pairwise_append]
        refine ⟨hs, List.pairwise_singleton _ _, ?_⟩
        intro x hx y hy
        rw [List.mem_singleton.mp hy]
        obtain ⟨k, hk, hxk⟩ := List.mem_iff_getElem.mp hx
        have hk' := hlt k (lt_of_lt_of_le hk h1)
        rw [List.getD_eq_getElem items dfltItem hk, hxk] at hk'
        exact hk'
      · intro hdup
        obtain ⟨hrlen, -⟩ := hdup_eq hdup
        omega
    · rw [if_neg h1]
      have hrlen : r < items.length := not_le.mp h1
      by_cases h2 : (items.getD r dfltItem).header.name = it.header.name
      · rw [if_pos h2]
        exact ⟨hs, fun _ => rfl⟩
      · rw [if_neg h2]
        have hit_lt : it.header.name < (items.getD r dfltItem).header.name :=
          lt_of_le_of_ne (hge hrlen) (fun he => h2 he.symm)
        have hdrop : ∀ y ∈ items.drop r, it.header.name < y.header.name := by
          intro y hy
          obtain ⟨i, hi, hyi⟩ := List.mem_iff_getElem.mp hy
          have hlen' : r + i < items.length := by
            have := hi
            simp only [List.length_drop] at this
            omega
          have hre : (items.drop r)[i] = items[r + i] := List.getElem_drop _
          have hle : (items.getD r dfltItem).header.name ≤
              (items.getD (r + i) dfltItem).header.name :=
            hsorted_le r (r + i) (Nat.le_add_right r i) hlen'
          rw [List.getD_eq_getElem items dfltItem hlen'] at hle
          rw [← hyi, hre]
          exact lt_of_lt_of_le hit_lt hle
        have htake : ∀ x ∈ items.take r, x.header.name < it.header.name := by
          intro x hx
          obtain ⟨i, hi, hxi⟩ := List.mem_iff_getElem.mp hx
          have hir : i < r := by
            have := hi
            simp only [List.length_take] at this
            omega
          have hilen : i < items.length := by
            have := hi
            simp only [List.length_take] at this
            omega
          have hre : (items.take r)[i] = items[i] := List.getElem_take _
          have := hlt i hir
          rw [List.getD_eq_getElem items dfltItem hilen] at this
          rw [← hxi, hre]
          exact this
        constructor
        · rw [List.pairwise_append]
          refine ⟨hs.sublist (List.take_sublist r items), ?_, ?_⟩
          · rw [List.pairwise_cons]
            exact ⟨fun y hy => hdrop y hy, hs.sublist (List.drop_sublist r items)⟩
          · intro x hx y hy
            rcases List.mem_cons.mp hy with rfl | hy'
            · exact htake x hx
            · exact lt_trans (htake x hx) (hdrop y hy')
        · intro hdup
          obtain ⟨-, heq⟩ := hdup_eq hdup
          exact absurd heq h2

/-- C1, confirmed: starting from the empty collection, after any sequence
of `add` calls the stored items are strictly sorted ascending by header
name (hence no two share a name), and adding an item whose header name is
already present leaves the collection unchanged (the first-added item for
that name is kept). -/
theorem C1_archiveItems_add_invariant (seq : List ArchiveItem) :
    (seq.foldl archiveItemsAdd []).Pairwise itemLt ∧
      ∀ it, (∃ x ∈ seq.foldl archiveItemsAdd [], x.header.name = it.header.name) →
        archiveItemsAdd (seq.foldl archiveItemsAdd []) it = seq.foldl archiveItemsAdd [] := by
  have main : ∀ (s : List ArchiveItem), s.Pairwise itemLt →
      (seq.foldl archiveItemsAdd s).Pairwise itemLt := by
    induction seq with
    | nil => intro s hsorted; exact hsorted
    | cons a rest ih =>
      intro s hsorted
      exact ih (archiveItemsAdd s a) (archiveItemsAdd_spec s a hsorted).1
  refine ⟨main [] List.Pairwise.nil, ?_⟩
  intro it hdup
  exact (archiveItemsAdd_spec _ it (main [] List.Pairwise.nil)).2 hdup

/-- C1 witness: the invariant applied to the concrete insertion sequence
`b, a, c` with a duplicate-named `a` added at the end. -/
theorem C1_archiveItems_add_invariant_witness :
    ([⟨⟨"b", 0, 0, ""⟩, "b"⟩, ⟨⟨"a", 0, 0, ""⟩, "a"⟩,
        (⟨⟨"c", 0, 0, ""⟩, "c"⟩ : ArchiveItem)].foldl archiveItemsAdd []).Pairwise itemLt ∧
      archiveItemsAdd
          ([⟨⟨"b", 0, 0, ""⟩, "b"⟩, ⟨⟨"a", 0, 0, ""⟩, "a"⟩,
            (⟨⟨"c", 0, 0, ""⟩, "c"⟩ : ArchiveItem)].foldl archiveItemsAdd [])
          ⟨⟨"a", 9, 9, "t"⟩, "other"⟩ =
        [⟨⟨"b", 0, 0, ""⟩, "b"⟩, ⟨⟨"a", 0, 0, ""⟩, "a"⟩,
          (⟨⟨"c", 0, 0, ""⟩, "c"⟩ : ArchiveItem)].foldl archiveItemsAdd [] := by
  refine ⟨(C1_archiveItems_add_invariant _).1, ?_⟩
  exact (C1_archiveItems_add_invariant _).2 ⟨⟨"a", 9, 9, "t"⟩, "other"⟩
    ⟨⟨⟨"a", 0, 0, ""⟩, "a"⟩, by decide, rfl⟩

/-! ## `internal/archive`: `AddItem`, `addSymlink`, `addFile`, `addDir` -/

theorem joinCh_cons_cons (sep : Char) (s t : List Char) (rest : List (List Char)) :
    joinCh sep (s :: t :: rest) = s ++ sep :: joinCh sep (t :: rest) := rfl

theorem splitCh_joinCh (sep : Char) :
    ∀ (segs : List (List Char)), segs ≠ [] → (∀ s ∈ segs, sep ∉ s) →
      splitCh sep (joinCh sep segs) = segs := by
  intro segs
  induction segs with
  | nil => intro h; exact absurd rfl h
  | cons s rest ih =>
    intro hne hgood
    cases rest with
    | nil =>
      show splitCh sep (joinCh sep [s]) = [s]
      exact splitCh_of_not_mem sep s (hgood s (List.mem_cons_self _ _))
    | cons t rest' =>
      rw [joinCh_cons_cons, splitCh_append_sep sep s _ (hgood s (List.mem_cons_self _ _))]
      rw [ih (by simp) (fun x hx => hgood x (List.mem_cons_of_mem _ hx))]

theorem joinCh_headI (sep : Char) (s : List Char) (rest : List (List Char)) (hs : s ≠ []) :
    joinCh sep (s :: rest) ≠ [] ∧ (joinCh sep (s :: rest)).headI = s.headI := by
  cases rest with
  | nil => exact ⟨hs, rfl⟩
  | cons t rest' =>
    rw [joinCh_cons_cons]
    obtain ⟨c, cs, rfl⟩ := List.exists_cons_of_ne_nil hs
    exact ⟨by simp, rfl⟩

/-- `Clean` is the identity on a canonical relative path (nonempty,
slash-free components, none of which is `.` or `..`). -/
theorem goCleanL_rel_canonical (segs : List (List Char)) (hne : segs ≠ [])
    (hgood : ∀ s ∈ segs, s ≠ [] ∧ s ≠ ['.'] ∧ s ≠ ['.', '.'] ∧ '/' ∉ s) :
    goCleanL (joinCh '/' segs) = joinCh '/' segs := by
  obtain ⟨s, rest, rfl⟩ := List.exists_cons_of_ne_nil hne
  have hs := hgood s (List.mem_cons_self _ _)
  obtain ⟨hjne, hjhead⟩ := joinCh_headI '/' s rest hs.1
  have hsplit : splitCh '/' (joinCh '/' (s :: rest)) = s :: rest :=
    splitCh_joinCh '/' (s :: rest) (by simp) (fun x hx => (hgood x hx).2.2.2)
  have hroot : ¬(joinCh '/' (s :: rest)).headI = '/' := by
    rw [hjhead]
    obtain ⟨c, cs, rfl⟩ := List.exists_cons_of_ne_nil hs.1
    intro h
    exact hs.2.2.2 (by rw [show c = '/' from h]; exact List.mem_cons_self _ _)
  rw [goCleanL, if_neg hjne]
  have hr : decide ((joinCh '/' (s :: rest)).headI = '/') = false := by
    simpa using hroot
  simp only [hr, hsplit]
  have hfilter : (s :: rest).filter (fun c => decide (c ≠ []) && decide (c ≠ ['.'])) =
      s :: rest := by
    rw [List.filter_eq_self]
    intro a ha
    have := hgood a ha
    simp [this.1, this.2.1]
  rw [hfilter, cleanStep_no_dotdot false _ (fun hm => (hgood _ hm).2.2.1 rfl) []]
  simp only [List.nil_append, Bool.false_eq_true, if_false]
  rw [if_neg (by simp)]

/-- Result of `os.Lstat` for the archive builder: `enoent` is the
`*os.PathError` whose `Err` is `syscall.ENOENT`, `err` any other stat
failure, and `info` carries the mode's symlink bit, dir bit, permission
bits (`Mode().Perm()`) and size. -/
inductive ArLstat where
  | enoent : ArLstat
  | err : ArLstat
  | info : Bool → Bool → Nat → Int → ArLstat
deriving DecidableEq

/-- The host state and configuration the archive builder reads:
`mergedUsr` is the (per-invocation constant) value of
`osutil.HasMergedUsr()`, `lstat` is `os.Lstat`, `readlink` is
`os.Readlink` (`none` = error). -/
structure ArchEnv where
  mergedUsr : Bool
  lstat : String → ArLstat
  readlink : String → Option String

/-- The path actually used by `AddItem` after the merged-usr rewrite. -/
def mergedPath (env : ArchEnv) (p : String) : String :=
  if env.mergedUsr then mergeUsr p else p

/-- The header-only directory entry `addDir` records for a path. -/
def dirItem (p : String) : ArchiveItem :=
  ⟨⟨p, cpioModeDir ||| 0o755, 0, ""⟩, p⟩

/-- `Archive.addDir(dir)`: split the destination on `/` and record a
header-only directory entry for every prefix (`archiveItems.add` drops
the ones already present). -/
def addDir (items : List ArchiveItem) (dir : String) : List ArchiveItem :=
  let dir := if dir = "/" then "." else dir
  let subdirs := splitCh '/' (goTrimPrefix dir "/").data
  (List.range subdirs.length).foldl
    (fun its i =>
      archiveItemsAdd its
        (dirItem (goJoin2 ⟨joinCh '/' (subdirs.take i)⟩ ⟨subdirs.getD i []⟩)))
    items

/-- `Archive.addFile(source, dest)`: ensure the parent directories exist,
re-stat the source, and record a regular-file entry carrying the host
permission bits and size. -/
def addFile (env : ArchEnv) (items : List ArchiveItem) (source dest : String) :
    List ArchiveItem × Option String :=
  let items1 := addDir items (goDir dest)
  match env.lstat source with
  | .info _ _ perm size =>
      (archiveItemsAdd items1 ⟨⟨goTrimPrefix dest "/", perm, size, ""⟩, source⟩, none)
  | _ => (items1, some ("addFile: failed to stat file: " ++ source))

/-- `osutil.RelativeSymlinkTargetToDir(symPath, dir)`: the absolute path
of `symPath` interpreted inside `dir` (the source `chdir`s and calls
`filepath.Abs`; modelled as the pure path computation). -/
def relativeSymlinkTargetToDir (symPath dir : String) : String :=
  if goIsAbs symPath then goClean symPath else goJoin2 dir symPath

/-- The two mutually recursive archive operations (`Archive.AddItem` and
`Archive.addSymlink`), interpreted by one fuelled function. -/
inductive ArCall where
  | item : String → String → ArCall
  | symlink : String → String → ArCall

/-- One interpreter for `AddItem`/`addSymlink`: returns the updated item
collection and an error (`none` = success).  `AddItem` rewrites both
paths under merged usr, stats the source, and dispatches: a missing
source records `dest` as a new directory, any other stat error is fatal,
a symlink goes to `addSymlink` (which first adds the link target, its
error discarded as in the source, then the link entry itself), a
directory goes to `addDir`, anything else to `addFile`. -/
def arRun (env : ArchEnv) : Nat → ArCall → List ArchiveItem → List ArchiveItem × Option String
  | 0, _, items => (items, some "recursion depth exhausted")
  | fuel + 1, .item source dest, items =>
    let source := mergedPath env source
    let dest := mergedPath env dest
    match env.lstat source with
    | .enoent => (addDir items dest, none)
    | .err => (items, some ("AddItem: failed to get stat for " ++ source))
    | .info isSym isDir _ _ =>
      if isSym then arRun env fuel (.symlink source dest) items
      else if isDir then (addDir items dest, none)
      else addFile env items source dest
  | fuel + 1, .symlink source dest, items =>
    match env.readlink source with
    | none => (items, some ("addSymlink: failed to get symlink target for: " ++ source))
    | some target =>
      let targetAbs := if goDir target = "." then goJoin2 (goDir source) target else target
      let targetAbs :=
        if goIsAbs targetAbs then targetAbs
        else relativeSymlinkTargetToDir targetAbs (goDir source)
      let items1 := (arRun env fuel (.item targetAbs targetAbs) items).1
      (archiveItemsAdd items1
        ⟨⟨goTrimPrefix dest "/", 0o644 ||| cpioModeSymlink, (target.length : Int), target⟩,
          source⟩,
        none)

/-- `Archive.AddItem(source, dest)`. -/
def addItem (env : ArchEnv) (fuel : Nat) (items : List ArchiveItem) (source dest : String) :
    List ArchiveItem × Option String :=
  arRun env fuel (.item source dest) items

/-- The directory chain the claim describes: `dest` (relative, no leading
slash) and each of its parents, innermost last. -/
def specDirChain (dest : String) : List String :=
  let segs := splitCh '/' (goTrimPrefix dest "/").data
  (List.range segs.length).map (fun i => ⟨joinCh '/' (segs.take (i + 1))⟩)

example : specDirChain "/usr/share/x" = ["usr", "usr/share", "usr/share/x"] := by decide

theorem normalAbs_elim (dest : String) (h : normalAbs dest = true) :
    ∃ rest, dest.data = '/' :: rest ∧
      (∀ s ∈ splitCh '/' rest, s ≠ [] ∧ s ≠ ['.'] ∧ s ≠ ['.', '.'] ∧ '/' ∉ s) := by
  simp only [normalAbs, Bool.and_eq_true, decide_eq_true_eq, List.all_eq_true] at h
  obtain ⟨⟨hne, hhead⟩, hall⟩ := h
  obtain ⟨c, rest, hd⟩ := List.exists_cons_of_ne_nil hne
  rw [hd] at hhead
  simp only [List.headI_cons] at hhead
  subst hhead
  refine ⟨rest, hd, ?_⟩
  intro s hs
  have hgood := hall s (by rw [hd]; simpa using hs)
  simp only [Bool.and_eq_true, decide_eq_true_eq] at hgood
  exact ⟨hgood.1.1, hgood.1.2, hgood.2, not_mem_of_mem_splitCh '/' rest s hs⟩

theorem joinCh_append_singleton (sep : Char) :
    ∀ (A : List (List Char)) (x : List Char), A ≠ [] →
      joinCh sep (A ++ [x]) = joinCh sep A ++ sep :: x := by
  intro A
  induction A with
  | nil => intro x h; exact absurd rfl h
  | cons a A' ih =>
    intro x hne
    cases A' with
    | nil => rfl
    | cons b A'' =>
      have h2 := ih x (by simp)
      calc joinCh sep ((a :: b :: A'') ++ [x])
          = a ++ sep :: joinCh sep ((b :: A'') ++ [x]) := rfl
        _ = a ++ sep :: (joinCh sep (b :: A'') ++ sep :: x) := by rw [h2]
        _ = (a ++ sep :: joinCh sep (b :: A'')) ++ sep :: x := by simp
        _ = joinCh sep (a :: b :: A'') ++ sep :: x := rfl

/-- On a canonical absolute destination, the paths `addDir` records are
exactly the prefix chain of the claim. -/
theorem addDir_eq_chain (items : List ArchiveItem) (dest : String)
    (h : normalAbs dest = true) :
    addDir items dest =
      (specDirChain dest).foldl (fun its p => archiveItemsAdd its (dirItem p)) items := by
  obtain ⟨rest, hd, hall⟩ := normalAbs_elim dest h
  have hdne : dest ≠ "/" := by
    intro he
    rw [he] at hd
    have hrest : rest = [] := by
      have := congrArg List.tail hd
      simpa using this.symm
    subst hrest
    have := hall [] (by simp [splitCh])
    exact this.1 rfl
  have hpre : goHasPrefix dest "/" = true := by
    simp [goHasPrefix, hd, hasPrefixL]
  have htrim : (goTrimPrefix dest "/").data = rest := by
    rw [goTrimPrefix, if_pos hpre]
    simp [hd]
  simp only [addDir, specDirChain, if_neg hdne, htrim]
  rw [List.foldl_map]
  apply List.foldl_ext
  intro acc i hi
  rw [List.mem_range] at hi
  have hgood : ∀ s ∈ splitCh '/' rest, s ≠ [] ∧ s ≠ ['.'] ∧ s ≠ ['.', '.'] ∧ '/' ∉ s := hall
  have hgetd : (splitCh '/' rest).getD i [] = (splitCh '/' rest)[i] :=
    List.getD_eq_getElem _ _ hi
  have htakesucc : (splitCh '/' rest).take (i + 1) =
      (splitCh '/' rest).take i ++ [(splitCh '/' rest)[i]] := by
    rw [List.take_succ, List.getElem?_eq_getElem hi]
    rfl
  have hmemi : (splitCh '/' rest)[i] ∈ splitCh '/' rest := List.getElem_mem _
  suffices hXY : goJoin2 ⟨joinCh '/' ((splitCh '/' rest).take i)⟩
      ⟨(splitCh '/' rest).getD i []⟩ =
      (⟨joinCh '/' ((splitCh '/' rest).take (i + 1))⟩ : String) by
    rw [hXY]
  rcases Nat.eq_zero_or_pos i with rfl | hpos
  · have h0 : (⟨joinCh '/' ((splitCh '/' rest).take 0)⟩ : String) = "" := rfl
    rw [h0, goJoin2, if_neg (by simp), if_pos]
    · show goClean ⟨(splitCh '/' rest).getD 0 []⟩ = _
      rw [hgetd]
      have : goCleanL (joinCh '/' [(splitCh '/' rest)[0]]) = joinCh '/' [(splitCh '/' rest)[0]] :=
        goCleanL_rel_canonical [(splitCh '/' rest)[0]] (by simp)
          (by intro s hs; rw [List.mem_singleton.mp hs]; exact hgood _ hmemi)
      rw [htakesucc]
      simp only [List.take_zero, List.nil_append]
      exact congrArg String.mk this
    · intro he
      have : (splitCh '/' rest).getD 0 [] = [] := by
        have := congrArg String.data he
        simpa [hgetd] using this
      rw [hgetd] at this
      exact (hgood _ hmemi).1 this
  · have htne : (splitCh '/' rest).take i ≠ [] := by
      intro he
      rw [List.take_eq_nil_iff] at he
      rcases he with he | he
      · omega
      · rw [he] at hi; simp at hi
    obtain ⟨s0, r0, ht0⟩ := List.exists_cons_of_ne_nil htne
    have hs0 : s0 ∈ splitCh '/' rest := List.mem_of_mem_take (ht0 ▸ List.mem_cons_self _ _)
    have hjne : joinCh '/' ((splitCh '/' rest).take i) ≠ [] := by
      rw [ht0]
      exact (joinCh_headI '/' s0 r0 (hgood s0 hs0).1).1
    have hane : (⟨joinCh '/' ((splitCh '/' rest).take i)⟩ : String) ≠ "" := by
      intro he
      exact hjne (by simpa using congrArg String.data he)
    rw [goJoin2, if_pos hane]
    apply congrArg String.mk
    show goCleanL (joinCh '/' ((splitCh '/' rest).take i) ++ '/' :: ((splitCh '/' rest).getD i [])) = _
    rw [hgetd, ← joinCh_append_singleton '/' _ _ htne, ← htakesucc]
    exact goCleanL_rel_canonical _
      (by
        rw [htakesucc]
        intro he
        have hlen := congrArg List.length he
        simp only [List.length_append, List.length_take, List.length_cons,
          List.length_nil] at hlen
        omega)
      (fun s hs => hgood s (List.mem_of_mem_take hs))

theorem foldDir_mem_old (chain : List String) :
    ∀ (items : List ArchiveItem) (x : ArchiveItem), x ∈ items →
      x ∈ chain.foldl (fun its p => archiveItemsAdd its (dirItem p)) items := by
  induction chain with
  | nil => intro items x hx; exact hx
  | cons q rest ih =>
    intro items x hx
    exact ih _ x (archiveItemsAdd_mem_old items (dirItem q) x hx)

theorem foldDir_mem_chain (chain : List String) :
    ∀ (items : List ArchiveItem) (p : String), p ∈ chain →
      ∃ x ∈ chain.foldl (fun its p => archiveItemsAdd its (dirItem p)) items,
        x.header.name = p := by
  induction chain with
  | nil => intro items p hp; exact absurd hp (List.not_mem_nil p)
  | cons q rest ih =>
    intro items p hp
    rcases List.mem_cons.mp hp with rfl | hp'
    · obtain ⟨y, hy, hname⟩ := archiveItemsAdd_mem_name items (dirItem p)
      exact ⟨y, foldDir_mem_old rest _ y hy, hname⟩
    · exact ih _ p hp'

theorem foldDir_mem_new (chain : List String) :
    ∀ (items : List ArchiveItem) (x : ArchiveItem),
      x ∈ chain.foldl (fun its p => archiveItemsAdd its (dirItem p)) items →
      x ∈ items ∨ ∃ p ∈ chain, x = dirItem p := by
  induction chain with
  | nil => intro items x hx; exact Or.inl hx
  | cons q rest ih =>
    intro items x hx
    rcases ih _ x hx with h | ⟨p, hp, hpd⟩
    · rcases archiveItemsAdd_mem_new items (dirItem q) x h with h' | h'
      · exact Or.inl h'
      · exact Or.inr ⟨q, List.mem_cons_self _ _, h'⟩
    · exact Or.inr ⟨p, List.mem_cons_of_mem _ hp, hpd⟩

/-- C3, confirmed: when the (merged-usr-rewritten) source is absent from
the host filesystem (`Lstat` fails with `ENOENT`), `AddItem` treats the
(rewritten) destination as a new directory: it succeeds, keeps every
existing entry, records a header-only `0755` directory entry for the
destination and each of its parents, and adds nothing else.  When `Lstat`
fails with any other error, `AddItem` returns a fatal error and adds no
entry. -/
theorem C3_addItem_stat_behavior (env : ArchEnv) (fuel : Nat) (items : List ArchiveItem)
    (source dest : String) :
    (env.lstat (mergedPath env source) = .enoent →
      normalAbs (mergedPath env dest) = true →
      (addItem env (fuel + 1) items source dest).2 = none ∧
      (∀ x ∈ items, x ∈ (addItem env (fuel + 1) items source dest).1) ∧
      (∀ p ∈ specDirChain (mergedPath env dest),
        ∃ x ∈ (addItem env (fuel + 1) items source dest).1, x.header.name = p) ∧
      (∀ x ∈ (addItem env (fuel + 1) items source dest).1,
        x ∈ items ∨
          (x.header.name ∈ specDirChain (mergedPath env dest) ∧
            x.header.mode = (cpioModeDir ||| 0o755) ∧ x.header.size = 0 ∧
            x.header.linkname = ""))) ∧
    (env.lstat (mergedPath env source) = .err →
      addItem env (fuel + 1) items source dest =
        (items, some ("AddItem: failed to get stat for " ++ mergedPath env source))) := by
  have hstep : addItem env (fuel + 1) items source dest =
      match env.lstat (mergedPath env source) with
      | .enoent => (addDir items (mergedPath env dest), none)
      | .err => (items, some ("AddItem: failed to get stat for " ++ mergedPath env source))
      | .info isSym isDir _ _ =>
        if isSym then arRun env fuel (.symlink (mergedPath env source) (mergedPath env dest)) items
        else if isDir then (addDir items (mergedPath env dest), none)
        else addFile env items (mergedPath env source) (mergedPath env dest) := rfl
  constructor
  · intro hstat hnorm
    rw [hstep, hstat]
    have hchain := addDir_eq_chain items (mergedPath env dest) hnorm
    refine ⟨rfl, ?_, ?_, ?_⟩
    · intro x hx
      rw [hchain]
      exact foldDir_mem_old _ items x hx
    · intro p hp
      rw [hchain]
      exact foldDir_mem_chain _ items p hp
    · intro x hx
      rw [hchain] at hx
      rcases foldDir_mem_new _ items x hx with h | ⟨p, hp, rfl⟩
      · exact Or.inl h
      · exact Or.inr ⟨hp, rfl, rfl, rfl⟩
  · intro hstat
    rw [hstep, hstat]

/-- C3 witness: at a host where `/missing` is absent (`ENOENT`) and
`/broken` gives a non-`ENOENT` stat error, `AddItem` records exactly the
directory chain of `/usr/share/foo` and succeeds, respectively fails
without adding anything. -/
theorem C3_addItem_stat_behavior_witness :
    ((addItem ⟨false, fun _ => .enoent, fun _ => none⟩ 3 [] "/missing" "/usr/share/foo").2 =
        none ∧
      (∃ x ∈ (addItem ⟨false, fun _ => .enoent, fun _ => none⟩ 3 [] "/missing"
          "/usr/share/foo").1, x.header.name = "usr/share/foo")) ∧
      addItem ⟨false, fun _ => .err, fun _ => none⟩ 3 [] "/broken" "/x" =
        ([], some "AddItem: failed to get stat for /broken") := by
  have h1 := (C3_addItem_stat_behavior ⟨false, fun _ => .enoent, fun _ => none⟩ 2 []
    "/missing" "/usr/share/foo").1 (by decide) (by decide)
  have h2 := (C3_addItem_stat_behavior ⟨false, fun _ => .err, fun _ => none⟩ 2 []
    "/broken" "/x").2 (by decide)
  exact ⟨⟨h1.1, h1.2.2.1 "usr/share/foo" (by decide)⟩, h2⟩

/-! ## `internal/misc`: file collection and ELF dependency resolution -/

/-- The host filesystem interface `internal/misc` reads: `statIsDir` is
`os.Stat` (`none` = error, otherwise whether the entry is a directory),
`glob` is `filepath.Glob`, `walk` lists the entries `filepath.Walk`
visits below a root in order (path and is-directory flag), `lstatSymlink`
is `os.Lstat` (the symlink bit), `readlink` is `os.Readlink`, and
`elfOpen` is `elf.Open` followed by `ImportedLibraries` (`none` = not a
readable ELF). -/
structure GfEnv where
  statIsDir : String → Option Bool
  glob : String → List String
  walk : String → Except String (List (String × Bool))
  lstatSymlink : String → Option Bool
  readlink : String → Option String
  elfOpen : String → Option (List String)

/-- The library search patterns of `getDeps` (not searched recursively). -/
def libdirGlobs : List String := ["/usr/lib", "/lib", "/usr/lib/expect*"]

/-- Resolution of one `DT_NEEDED` base name: glob each pattern in order,
join each resulting directory with the library name, and accept the
first path that stats successfully. -/
def resolveLib (env : GfEnv) (lib : String) : Option String :=
  (((libdirGlobs.map env.glob).flatten).map (fun libdir => goJoin2 libdir lib)).find?
    (fun p => (env.statIsDir p).isSome)

/-- The dependency loop of `getDeps` over the imported libraries:
`recDeps` is the recursive call at the next (smaller) fuel. -/
def depLoop (env : GfEnv)
    (recDeps : String → List String → Except String (List String × List String))
    (file : String) :
    List String → List String → List String → Except String (List String × List String)
  | [], files, parents => .ok (files, parents)
  | lib :: rest, files, parents =>
    match resolveLib env lib with
    | none => .error ("getDeps: unable to locate dependency for " ++ file ++ ": " ++ lib)
    | some path =>
      match recDeps path parents with
      | .error e => .error e
      | .ok (sub, parents') => depLoop env recDeps file rest (files ++ sub ++ [path]) parents'

/-- `getDeps(file, parents)`: skip an already-visited file; open the ELF
(failure is fatal here); record the file itself, mark it visited, then
resolve and recurse into every imported library.  Returns the collected
paths and the updated visited set. -/
def getDepsAux (env : GfEnv) :
    Nat → String → List String → Except String (List String × List String)
  | 0, _, _ => .error "getDeps: recursion depth exhausted"
  | fuel + 1, file, parents =>
    if file ∈ parents then .ok ([], parents)
    else
      match env.elfOpen file with
      | none => .error ("getDeps: unable to open elf binary " ++ file)
      | some libs => depLoop env (getDepsAux env fuel) file libs [file] (parents ++ [file])

/-- `getBinaryDeps(file)`: resolve a symlink input to its target, then
run `getDeps` with a fresh visited set. -/
def getBinaryDeps (env : GfEnv) (fuel : Nat) (file : String) : Except String (List String) :=
  match env.lstatSymlink file with
  | none => .error ("getBinaryDeps: failed to stat file " ++ file)
  | some isSym =>
    if isSym then
      match env.readlink file with
      | none => .error ("getBinaryDeps: unable to read symlink " ++ file)
      | some target =>
        let target :=
          if goIsAbs target then target else relativeSymlinkTargetToDir target (goDir file)
        match getDepsAux env fuel target [] with
        | .error e => .error e
        | .ok (files, _) => .ok files
    else
      match getDepsAux env fuel file [] with
      | .error e => .error e
      | .ok (files, _) => .ok files

/-- The file `getBinaryDeps` actually resolves dependencies for: the
input itself, or the (absolutised) target of a symlink input. -/
def depStart (env : GfEnv) (file : String) : Option String :=
  match env.lstatSymlink file with
  | none => none
  | some true =>
    (env.readlink file).map
      (fun t => if goIsAbs t then t else relativeSymlinkTargetToDir t (goDir file))
  | some false => some file

/-- Reachability along resolved `DT_NEEDED` edges, starting at `root`. -/
inductive DepReaches (env : GfEnv) (root : String) : String → Prop where
  | refl : DepReaches env root root
  | step {g h lib : String} {libs : List String} :
      DepReaches env root g → env.elfOpen g = some libs → lib ∈ libs →
      resolveLib env lib = some h → DepReaches env root h

theorem DepReaches.trans (env : GfEnv) (a b c : String)
    (hab : DepReaches env a b) (hbc : DepReaches env b c) : DepReaches env a c := by
  induction hbc with
  | refl => exact hab
  | step hg helf hlib hres ih => exact DepReaches.step ih helf hlib hres

/-- A node all of whose resolved dependencies lie in `P`. -/
def depClosedAt (env : GfEnv) (P : List String) (v : String) : Prop :=
  ∃ libs, env.elfOpen v = some libs ∧
    ∀ lib ∈ libs, ∃ h, resolveLib env lib = some h ∧ h ∈ P

theorem depClosedAt_mono (env : GfEnv) (P P' : List String) (v : String)
    (hsub : ∀ x ∈ P, x ∈ P') (h : depClosedAt env P v) : depClosedAt env P' v := by
  obtain ⟨libs, helf, hall⟩ := h
  exact ⟨libs, helf, fun lib hlib =>
    let ⟨g, hg, hgp⟩ := hall lib hlib
    ⟨g, hg, hsub g hgp⟩⟩

/-- The full invariant of one `getDeps` call: the visited set only
grows, the call's file is visited, every collected path is visited,
every newly visited node was collected, every newly visited node has all
its resolved dependencies visited, and every collected path is reachable
from the call's file. -/
def DepSpec (env : GfEnv) (file : String) (parents L P : List String) : Prop :=
  (∀ x ∈ parents, x ∈ P) ∧ file ∈ P ∧
    (∀ x ∈ L, x ∈ P) ∧ (∀ x ∈ P, x ∈ parents ∨ x ∈ L) ∧
    (∀ v ∈ P, v ∈ parents ∨ depClosedAt env P v) ∧
    (∀ x ∈ L, DepReaches env file x)

theorem depLoop_spec (env : GfEnv) (fuel : Nat) (file0 : String)
    (IH : ∀ file parents L P, getDepsAux env fuel file parents = .ok (L, P) →
      DepSpec env file parents L P) :
    ∀ (libs files parents L P : List String),
      depLoop env (getDepsAux env fuel) file0 libs files parents = .ok (L, P) →
        (∀ x ∈ parents, x ∈ P) ∧
        (∀ x ∈ files, x ∈ L) ∧
        (∀ x ∈ L, x ∈ files ∨ x ∈ P) ∧
        (∀ x ∈ P, x ∈ parents ∨ x ∈ L) ∧
        (∀ v ∈ P, v ∈ parents ∨ depClosedAt env P v) ∧
        (∀ lib ∈ libs, ∃ h, resolveLib env lib = some h ∧ h ∈ P) ∧
        ((∀ lib h, lib ∈ libs → resolveLib env lib = some h → DepReaches env file0 h) →
          ∀ x ∈ L, x ∈ files ∨ DepReaches env file0 x) := by
  intro libs
  induction libs with
  | nil =>
    intro files parents L P h
    simp only [depLoop, Except.ok.injEq, Prod.mk.injEq] at h
    obtain ⟨rfl, rfl⟩ := h
    exact ⟨fun x hx => hx, fun x hx => hx, fun x hx => Or.inl hx, fun x hx => Or.inl hx,
      fun v hv => Or.inl hv, fun lib hlib => absurd hlib (List.not_mem_nil lib),
      fun _ x hx => Or.inl hx⟩
  | cons lib rest ih =>
    intro files parents L P h
    cases hres : resolveLib env lib with
    | none =>
      simp only [depLoop, hres] at h
      exact absurd h (by simp)
    | some path =>
      simp only [depLoop, hres] at h
      cases hsub : getDepsAux env fuel path parents with
      | error e =>
        simp only [hsub] at h
        exact absurd h (by simp)
      | ok s =>
        obtain ⟨sub, P1⟩ := s
        simp only [hsub] at h
        obtain ⟨d1, d2, d3, d4, d5, d6⟩ := IH path parents sub P1 hsub
        obtain ⟨a', g', b', c', d', e', f'⟩ := ih (files ++ sub ++ [path]) P1 L P h
        have hP1P : ∀ x ∈ P1, x ∈ P := a'
        have hsubL : ∀ x ∈ sub, x ∈ L := fun x hx =>
          g' x (List.mem_append_left _ (List.mem_append_right _ hx))
        have hpathP : path ∈ P := hP1P path d2
        refine ⟨?_, ?_, ?_, ?_, ?_, ?_, ?_⟩
        · exact fun x hx => hP1P x (d1 x hx)
        · exact fun x hx => g' x (List.mem_append_left _ (List.mem_append_left _ hx))
        · intro x hx
          rcases b' x hx with hx' | hx'
          · rcases List.mem_append.mp hx' with hx'' | hx''
            · rcases List.mem_append.mp hx'' with h3 | h3
              · exact Or.inl h3
              · exact Or.inr (hP1P x (d3 x h3))
            · rw [List.mem_singleton.mp hx'']
              exact Or.inr hpathP
          · exact Or.inr hx'
        · intro x hx
          rcases c' x hx with hx' | hx'
          · rcases d4 x hx' with h4 | h4
            · exact Or.inl h4
            · exact Or.inr (hsubL x h4)
          · exact Or.inr hx'
        · intro v hv
          rcases d' v hv with hv' | hv'
          · rcases d5 v hv' with h5 | h5
            · exact Or.inl h5
            · exact Or.inr (depClosedAt_mono env P1 P v hP1P h5)
          · exact Or.inr hv'
        · intro lib' hlib'
          rcases List.mem_cons.mp hlib' with rfl | hlib''
          · exact ⟨path, hres, hpathP⟩
          · exact e' lib' hlib''
        · intro hedge x hx
          have hedge' : ∀ l h, l ∈ rest → resolveLib env l = some h →
              DepReaches env file0 h :=
            fun l h hl hr => hedge l h (List.mem_cons_of_mem _ hl) hr
          have hreach0 : DepReaches env file0 path :=
            hedge lib path (List.mem_cons_self _ _) hres
          rcases f' hedge' x hx with hx' | hx'
          · rcases List.mem_append.mp hx' with hx'' | hx''
            · rcases List.mem_append.mp hx'' with h3 | h3
              · exact Or.inl h3
              · exact Or.inr (DepReaches.trans env file0 path x hreach0 (d6 x h3))
            · rw [List.mem_singleton.mp hx'']
              exact Or.inr hreach0
          · exact Or.inr hx'

theorem getDepsAux_spec (env : GfEnv) :
    ∀ (fuel : Nat) (file : String) (parents L P : List String),
      getDepsAux env fuel file parents = .ok (L, P) → DepSpec env file parents L P := by
  intro fuel
  induction fuel with
  | zero =>
    intro file parents L P h
    simp [getDepsAux] at h
  | succ fuel ih =>
    intro file parents L P h
    by_cases hmem : file ∈ parents
    · simp only [getDepsAux, if_pos hmem, Except.ok.injEq, Prod.mk.injEq] at h
      obtain ⟨rfl, rfl⟩ := h
      exact ⟨fun x hx => hx, hmem, fun x hx => absurd hx (List.not_mem_nil x),
        fun x hx => Or.inl hx, fun v hv => Or.inl hv,
        fun x hx => absurd hx (List.not_mem_nil x)⟩
    · simp only [getDepsAux, if_neg hmem] at h
      cases helf : env.elfOpen file with
      | none =>
        simp only [helf] at h
        exact absurd h (by simp)
      | some libs =>
        simp only [helf] at h
        obtain ⟨a', g', b', c', d', e', f'⟩ :=
          depLoop_spec env fuel file ih libs [file] (parents ++ [file]) L P h
        have hfileP : file ∈ P :=
          a' file (List.mem_append_right _ (List.mem_singleton_self file))
        refine ⟨?_, hfileP, ?_, ?_, ?_, ?_⟩
        · exact fun x hx => a' x (List.mem_append_left _ hx)
        · intro x hx
          rcases b' x hx with hx' | hx'
          · rw [List.mem_singleton.mp hx']
            exact hfileP
          · exact hx'
        · intro x hx
          rcases c' x hx with hx' | hx'
          · rcases List.mem_append.mp hx' with h4 | h4
            · exact Or.inl h4
            · rw [List.mem_singleton.mp h4]
              exact Or.inr (g' file (List.mem_singleton_self file))
          · exact Or.inr hx'
        · intro v hv
          rcases d' v hv with hv' | hv'
          · rcases List.mem_append.mp hv' with h5 | h5
            · exact Or.inl h5
            · rw [List.mem_singleton.mp h5]
              exact Or.inr ⟨libs, helf, e'⟩
          · exact Or.inr hv'
        · intro x hx
          have hedge : ∀ lib h, lib ∈ libs → resolveLib env lib = some h →
              DepReaches env file h :=
            fun lib h hl hr => DepReaches.step DepReaches.refl helf hl hr
          rcases f' hedge x hx with hx' | hx'
          · rw [List.mem_singleton.mp hx']
            exact DepReaches.refl
          · exact hx'

/-- With a fresh visited set, `getDeps` collects exactly the nodes
reachable from its input (the input included). -/
theorem getDepsAux_closure (env : GfEnv) (fuel : Nat) (file : String) (L P : List String)
    (h : getDepsAux env fuel file [] = .ok (L, P)) :
    ∀ x, x ∈ L ↔ DepReaches env file x := by
  obtain ⟨-, hfileP, hLP, hPL, hclosed, hreach⟩ := getDepsAux_spec env fuel file [] L P h
  have hPL' : ∀ x ∈ P, x ∈ L := by
    intro x hx
    rcases hPL x hx with h' | h'
    · exact absurd h' (List.not_mem_nil x)
    · exact h'
  have hcomplete : ∀ x, DepReaches env file x → x ∈ P := by
    intro x hx
    induction hx with
    | refl => exact hfileP
    | step hg helf hlib hres ihg =>
      rename_i g h' lib libs
      rcases hclosed g ihg with h5 | h5
      · exact absurd h5 (List.not_mem_nil g)
      · obtain ⟨libs', helf', hall⟩ := h5
        rw [helf] at helf'
        obtain rfl : libs = libs' := Option.some.inj helf'
        obtain ⟨h'', hres', hmem⟩ := hall lib hlib
        rw [hres] at hres'
        rw [Option.some.inj hres']
        exact hmem
  exact fun x => ⟨hreach x, fun hx => hPL' x (hcomplete x hx)⟩

/-- A one-file host: `/a` is a regular non-symlink ELF with no imported
libraries. -/
def envC4x : GfEnv :=
  ⟨fun _ => none, fun _ => [], fun _ => .ok [],
    fun s => if s = "/a" then some false else none,
    fun _ => none,
    fun s => if s = "/a" then some [] else none⟩

/-- C4, counterexample: the claim says the returned closure excludes the
input file itself, but `getDeps` appends the input before walking its
libraries, so `getBinaryDeps` on an ELF with no dependencies returns the
input itself rather than the empty list. -/
theorem C4_getBinaryDeps_counterexample :
    getBinaryDeps envC4x 1 "/a" = .ok ["/a"] ∧ "/a" ∈ ["/a"] :=
  ⟨rfl, by decide⟩

/-- C4, amended: on success, `getBinaryDeps` returns exactly the
transitive closure of the resolved `DT_NEEDED` dependencies of its start
file (the input itself, or the target of a symlink input), as host
filesystem paths, *with the start file included*. -/
theorem C4_getBinaryDeps_closure (env : GfEnv) (fuel : Nat) (file start : String)
    (L : List String) (hstart : depStart env file = some start)
    (hok : getBinaryDeps env fuel file = .ok L) :
    start ∈ L ∧ ∀ x, x ∈ L ↔ DepReaches env start x := by
  have hiff : ∀ x, x ∈ L ↔ DepReaches env start x := by
    cases hsym : env.lstatSymlink file with
    | none => simp [depStart, hsym] at hstart
    | some isSym =>
      cases isSym with
      | false =>
        have hfs : file = start := by
          simpa [depStart, hsym] using hstart
        subst hfs
        simp only [getBinaryDeps, hsym, Bool.false_eq_true, if_false] at hok
        cases hga : getDepsAux env fuel file [] with
        | error e =>
          rw [hga] at hok
          exact absurd hok (by simp)
        | ok s =>
          obtain ⟨files, P⟩ := s
          rw [hga] at hok
          have hfl : files = L := by simpa using hok
          rw [← hfl]
          exact getDepsAux_closure env fuel file files P hga
      | true =>
        cases hrl : env.readlink file with
        | none => simp [depStart, hsym, hrl] at hstart
        | some target =>
          have hts : (if goIsAbs target = true then target
              else relativeSymlinkTargetToDir target (goDir file)) = start := by
            simpa [depStart, hsym, hrl] using hstart
          simp only [getBinaryDeps, hsym, if_true, hrl, hts] at hok
          cases hga : getDepsAux env fuel start [] with
          | error e =>
            rw [hga] at hok
            exact absurd hok (by simp)
          | ok s =>
            obtain ⟨files, P⟩ := s
            rw [hga] at hok
            have hfl : files = L := by simpa using hok
            rw [← hfl]
            exact getDepsAux_closure env fuel start files P hga
  exact ⟨(hiff start).mpr DepReaches.refl, hiff⟩

/-- A two-file host: `/a` is an ELF needing `libc.so`, resolved to
`/usr/lib/libc.so`, itself an ELF with no further dependencies. -/
def envC4w : GfEnv :=
  ⟨fun s => if s = "/usr/lib/libc.so" then some false else none,
    fun p => if p = "/usr/lib" then ["/usr/lib"] else [],
    fun _ => .ok [],
    fun s => if s = "/a" then some false else none,
    fun _ => none,
    fun s => if s = "/a" then some ["libc.so"]
      else if s = "/usr/lib/libc.so" then some [] else none⟩

/-- C4 witness: the closure characterization at the concrete two-file
host (note the returned list contains the input `/a` itself). -/
theorem C4_getBinaryDeps_closure_witness :
    "/a" ∈ ["/a", "/usr/lib/libc.so", "/usr/lib/libc.so"] ∧
      ∀ x, x ∈ ["/a", "/usr/lib/libc.so", "/usr/lib/libc.so"] ↔ DepReaches envC4w "/a" x :=
  C4_getBinaryDeps_closure envC4w 5 "/a" "/a" ["/a", "/usr/lib/libc.so", "/usr/lib/libc.so"]
    rfl rfl

/-- `misc.RemoveDuplicates(in)`: deduplication via a map.  (Go iterates
the map in unspecified order; modelled as first-occurrence order.) -/
def removeDuplicates (l : List String) : List String :=
  l.foldl (fun acc s => if s ∈ acc then acc else acc ++ [s]) []

/-- The three mutually recursive operations of the file-collection
engine: `getFile` (glob expansion), `getFileNormalized`, and the loops
that fold `getFile` over a list of paths (glob matches or walked
directory entries). -/
inductive GfCall where
  | file : String → GfCall
  | norm : String → GfCall
  | list : List String → GfCall

/-- One interpreter for `getFile`/`getFileNormalized`.

`getFile` expands a glob and recurses into each distinct match;
otherwise it defers to `getFileNormalized`, which: on a stat failure
first tries the `/usr`-merged variant for `/bin/` and `/sbin/` paths,
then the `.zst` sibling, and otherwise yields empty (or an error when
`required`); walks directories, recursing into every non-directory
entry; and yields a plain file, plus its ELF dependency closure when it
opens as an ELF. -/
def gfRun (env : GfEnv) : Nat → GfCall → Bool → Except String (List String)
  | 0, _, _ => .error "recursion depth exhausted"
  | fuel + 1, .file file, required =>
    let expanded := env.glob file
    if expanded ≠ [] ∧ expanded.headI ≠ file then
      match gfRun env fuel (.list expanded) required with
      | .error e => .error e
      | .ok files => .ok (removeDuplicates files)
    else gfRun env fuel (.norm file) required
  | fuel + 1, .norm file, required =>
    match env.statIsDir file with
    | none =>
      if goHasPrefix file "/bin/" || goHasPrefix file "/sbin/" then
        if (env.statIsDir (goJoin2 "/usr" file)).isSome then
          gfRun env fuel (.norm (goJoin2 "/usr" file)) required
        else if (env.statIsDir (file ++ ".zst")).isSome then
          gfRun env fuel (.norm (file ++ ".zst")) required
        else if required then .error ("getFile: failed to stat file " ++ file)
        else .ok []
      else if (env.statIsDir (file ++ ".zst")).isSome then
        gfRun env fuel (.norm (file ++ ".zst")) required
      else if required then .error ("getFile: failed to stat file " ++ file)
      else .ok []
    | some isDir =>
      if isDir then
        match env.walk file with
        | .error e => .error e
        | .ok entries =>
          match gfRun env fuel (.list ((entries.filter (fun e => !e.2)).map Prod.fst)) required with
          | .error e => .error e
          | .ok files => .ok (removeDuplicates files)
      else
        if (env.elfOpen file).isSome then
          match getBinaryDeps env fuel file with
          | .error e => .error e
          | .ok deps => .ok (removeDuplicates (file :: deps))
        else .ok (removeDuplicates [file])
  | _ + 1, .list [], _ => .ok []
  | fuel + 1, .list (f :: rest), required =>
    match gfRun env fuel (.file f) required with
    | .error e => .error e
    | .ok files =>
      match gfRun env fuel (.list rest) required with
      | .error e => .error e
      | .ok files' => .ok (files ++ files')

/-- `misc.getFile(file, required)`. -/
def getFile (env : GfEnv) (fuel : Nat) (file : String) (required : Bool) :
    Except String (List String) :=
  gfRun env fuel (.file file) required

/-- `misc.getFileNormalized(file, required)`. -/
def getFileNormalized (env : GfEnv) (fuel : Nat) (file : String) (required : Bool) :
    Except String (List String) :=
  gfRun env fuel (.norm file) required

/-- A host where `/bin/foo` is missing but both the `/usr`-merged
variant `/usr/bin/foo` and the compressed sibling `/bin/foo.zst` exist
(as plain non-ELF files). -/
def envC6 : GfEnv :=
  ⟨fun s => if s = "/usr/bin/foo" then some false
    else if s = "/bin/foo.zst" then some false else none,
    fun _ => [], fun _ => .ok [], fun _ => none, fun _ => none, fun _ => none⟩

/-- C6, counterexample: the claim says a missing non-glob path whose
`.zst` sibling exists is expanded to the `.zst` path; but for `/bin/` and
`/sbin/` paths the source first tries the `/usr`-merged variant and, when
that exists, proceeds with it instead — here `getFile("/bin/foo", true)`
yields `/usr/bin/foo`, not the existing `/bin/foo.zst`. -/
theorem C6_getFileNormalized_counterexample :
    getFile envC6 4 "/bin/foo" true = .ok ["/usr/bin/foo"] ∧
      getFileNormalized envC6 4 "/bin/foo.zst" true = .ok ["/bin/foo.zst"] ∧
      Except.ok ["/usr/bin/foo"] ≠ (Except.ok ["/bin/foo.zst"] : Except String (List String)) :=
  ⟨rfl, rfl, by simp⟩

/-- C6, amended: for a non-glob path `P` absent from the host filesystem
(every `os.Stat` failure is treated as absence): when `P` starts with
`/bin/` or `/sbin/` and the `/usr`-prefixed variant exists, expansion
proceeds with that variant (taking precedence over the `.zst` fallback);
otherwise, if the sibling `P + ".zst"` exists, expansion proceeds with
the `.zst` path in place of `P`; otherwise the expansion yields the
empty list without error when `required` is false, and fails with an
error when `required` is true.  (A non-glob pattern for a missing path
globs to the empty list, so `getFile` defers to `getFileNormalized`.) -/
theorem C6_getFileNormalized_fallback (env : GfEnv) (fuel : Nat) (file : String)
    (required : Bool) (hstat : env.statIsDir file = none) :
    (env.glob file = [] →
      getFile env (fuel + 1) file required = getFileNormalized env fuel file required) ∧
    ((goHasPrefix file "/bin/" || goHasPrefix file "/sbin/") = true →
      (env.statIsDir (goJoin2 "/usr" file)).isSome = true →
      getFileNormalized env (fuel + 1) file required =
        getFileNormalized env fuel (goJoin2 "/usr" file) required) ∧
    (((goHasPrefix file "/bin/" || goHasPrefix file "/sbin/") = false ∨
        (env.statIsDir (goJoin2 "/usr" file)).isSome = false) →
      (env.statIsDir (file ++ ".zst")).isSome = true →
      getFileNormalized env (fuel + 1) file required =
        getFileNormalized env fuel (file ++ ".zst") required) ∧
    (((goHasPrefix file "/bin/" || goHasPrefix file "/sbin/") = false ∨
        (env.statIsDir (goJoin2 "/usr" file)).isSome = false) →
      (env.statIsDir (file ++ ".zst")).isSome = false →
      (required = false → getFileNormalized env (fuel + 1) file required = .ok []) ∧
      (required = true → getFileNormalized env (fuel + 1) file required =
        .error ("getFile: failed to stat file " ++ file))) := by
  refine ⟨?_, ?_, ?_, ?_⟩
  · intro hglob
    show gfRun env (fuel + 1) (.file file) required = _
    rw [gfRun, hglob]
    simp only [ne_eq, not_true_eq_false, false_and, if_false]
    rfl
  · intro hpre husr
    show gfRun env (fuel + 1) (.norm file) required = _
    rw [gfRun]
    rw [hstat]
    simp only [hpre, husr, if_true]
    rfl
  · intro hpre hzst
    show gfRun env (fuel + 1) (.norm file) required = _
    rw [gfRun, hstat]
    rcases hpre with hpre | husr
    · simp only [hpre, Bool.false_eq_true, if_false, hzst, if_true]
      rfl
    · cases hpreb : (goHasPrefix file "/bin/" || goHasPrefix file "/sbin/") with
      | false =>
        simp only [hpreb, Bool.false_eq_true, if_false, hzst, if_true]
        rfl
      | true =>
        simp only [hpreb, if_true, husr, Bool.false_eq_true, if_false, hzst, if_true]
        rfl
  · intro hpre hzst
    have hshow : getFileNormalized env (fuel + 1) file required =
        gfRun env (fuel + 1) (.norm file) required := rfl
    constructor
    · intro hreq
      subst hreq
      rw [hshow, gfRun, hstat]
      rcases hpre with hpre | husr
      · simp [hpre, hzst]
      · cases hpreb : (goHasPrefix file "/bin/" || goHasPrefix file "/sbin/") <;>
          simp [hpreb, husr, hzst]
    · intro hreq
      subst hreq
      rw [hshow, gfRun, hstat]
      rcases hpre with hpre | husr
      · simp [hpre, hzst]
      · cases hpreb : (goHasPrefix file "/bin/" || goHasPrefix file "/sbin/") <;>
          simp [hpreb, husr, hzst]

/-- C6 witness: the fallback characterization at the concrete host
`envC6` — the `/usr` variant takes precedence for `/bin/foo`, and a
missing non-required `/nope` yields the empty list. -/
theorem C6_getFileNormalized_fallback_witness :
    getFileNormalized envC6 4 "/bin/foo" true = getFileNormalized envC6 3 "/usr/bin/foo" true ∧
      getFileNormalized envC6 4 "/nope" false = .ok [] := by
  constructor
  · exact (C6_getFileNormalized_fallback envC6 3 "/bin/foo" true (by decide)).2.1
      (by decide) (by decide)
  · exact ((C6_getFileNormalized_fallback envC6 3 "/nope" false (by decide)).2.2.2
      (Or.inl (by decide)) (by decide)).1 rfl

end Mkinitfs
